import Mathlib

/-!
Verification development for the PixivDownloader repository.

The Python sources are shallowly embedded: URLs, file names and file
contents are `List Char`; the `re.sub` calls of the URL rewriters are
modelled by explicit left-to-right scanners with Python's semantics
(global replacement, greedy `\d+`, `$` matching at the end of the string
or before a final newline); HTTP responses and directory listings are
inputs; side effects (file writes, progress updates, deletions) are
recorded as explicit event lists.
-/

namespace PixivDL

/-- Python decimal digit character for a value below ten (used to model
`f"p{image}"` style formatting). -/
def digitChar (d : Nat) : Char :=
  match d with
  | 0 => '0' | 1 => '1' | 2 => '2' | 3 => '3' | 4 => '4'
  | 5 => '5' | 6 => '6' | 7 => '7' | 8 => '8' | _ => '9'

/-- Fuel-driven decimal rendering of a natural number, least significant
digit last. The fuel argument makes the recursion structural. -/
def natCharsAux : Nat → Nat → List Char
  | 0, _ => []
  | f + 1, n => if n < 10 then [digitChar n] else natCharsAux f (n / 10) ++ [digitChar (n % 10)]

/-- Decimal representation of a natural number as Python's `str` renders
nonnegative integers. -/
def natChars (n : Nat) : List Char := natCharsAux (n + 1) n

/-- Numeric value of a digit character. -/
def charVal (c : Char) : Nat := c.toNat - 48

/-- Value of a decimal digit string (most significant first). -/
def digitsVal (l : List Char) : Nat := l.foldl (fun a c => 10 * a + charVal c) 0

/-- Scanner for `re.sub` with a literal (metacharacter-free) pattern
`p :: ps`: every non-overlapping occurrence, found left to right, is
replaced by `repl`. The extra `skip` argument counts characters of an
already-consumed match, keeping the recursion structural. -/
def scanLitAux (p : Char) (ps repl : List Char) : List Char → Nat → List Char
  | [], _ => []
  | _ :: rest, k + 1 => scanLitAux p ps repl rest k
  | c :: rest, 0 =>
    if (p :: ps).isPrefixOf (c :: rest)
    then repl ++ scanLitAux p ps repl rest ps.length
    else c :: scanLitAux p ps repl rest 0

/-- Model of `re.sub(literal, repl, s)`: global replacement of a literal
pattern. -/
def scanLit (p : Char) (ps repl s : List Char) : List Char :=
  scanLitAux p ps repl s 0

/-- Adjacency test: does `s` contain the character `a` immediately
followed by `b`? -/
def hasAdj (a b : Char) : List Char → Bool
  | c :: d :: t => (c = a && d = b) || hasAdj a b (d :: t)
  | _ => false

/-- Does the list start with a decimal digit? -/
def headDigit : List Char → Bool
  | d :: _ => d.isDigit
  | [] => false

/-- Scanner for `re.sub(r"p\d+", f"p{k}", s)`: each maximal occurrence of
`p` followed by one or more digits is replaced by `p` and the decimal
digits of `k`. The Boolean argument marks digits still belonging to an
already-replaced match. -/
def subPAux (k : Nat) : List Char → Bool → List Char
  | [], _ => []
  | c :: rest, skp =>
    if skp && c.isDigit then subPAux k rest true
    else if c = 'p' && headDigit rest then 'p' :: (natChars k ++ subPAux k rest true)
    else c :: subPAux k rest false

/-- Model of the page-index substitution `re.sub(r"p\d+", f"p{k}", s)`
(equally of the historical `re.sub(r"p[0-9]+", f"p{k}", s)`). -/
def subP (k : Nat) (s : List Char) : List Char := subPAux k s false

/-- Adjacency test for the page-index pattern: does `s` contain `p`
immediately followed by a digit? -/
def hasPDig : List Char → Bool
  | c :: d :: t => (c = 'p' && d.isDigit) || hasPDig (d :: t)
  | _ => false

/-- List of the digit groups of the maximal `p`-digit runs of a string,
in order of occurrence (the substrings matched by `p\d+`). -/
def pRuns : List Char → List (List Char)
  | [] => []
  | c :: rest =>
    if c = 'p' && headDigit rest
    then (rest.takeWhile Char.isDigit) :: pRuns (rest.dropWhile Char.isDigit)
    else pRuns rest
  termination_by l => l.length
  decreasing_by
    · simp only [List.length_cons]
      have := (List.dropWhile_sublist Char.isDigit (l := rest)).length_le
      omega
    · simp

/-- The replacement `_master1200.jpg` inserted by the image-URL rewrite. -/
def ms1200 : List Char := "_master1200.jpg".data

/-- Model of `re.sub(r"(_square1200|_custom1200)\.jpg$", repl, s)` from
`helpers/pixiv_utils.py`: the fifteen-character pattern can only match at
the end of the string or just before a final newline (Python `$`). -/
def subSuffixNew (repl s : List Char) : List Char :=
  if ("_square1200.jpg\n".data.isSuffixOf s || "_custom1200.jpg\n".data.isSuffixOf s)
  then s.take (s.length - 16) ++ repl ++ ['\n']
  else if ("_square1200.jpg".data.isSuffixOf s || "_custom1200.jpg".data.isSuffixOf s)
  then s.take (s.length - 15) ++ repl
  else s

/-- End-of-string match for the historical unescaped patterns
`_square1200.jpg$` / `_custom1200.jpg$` where `.` is a regex wildcard:
`tag` (eleven characters) followed by any non-newline character followed
by `jpg`, as the last fifteen characters of `s`. -/
def oldEndMatch (tag s : List Char) : Bool :=
  decide (15 ≤ s.length) &&
    (let w := s.drop (s.length - 15)
     tag.isPrefixOf w &&
       (match w.drop 11 with
        | c :: _ => decide (c ≠ '\n')
        | [] => false) &&
       decide (w.drop 12 = "jpg".data))

/-- Model of one `re.sub(r"<tag>.jpg$", repl, s)` call of the historical
rewriters (`album_downloader.py`, `helpers/url_utils.py`), including the
`$`-before-final-newline rule. -/
def subEndOld (tag repl s : List Char) : List Char :=
  if (s.getLast? == some '\n') && oldEndMatch tag s.dropLast
  then (s.dropLast.take (s.dropLast.length - 15)) ++ repl ++ ['\n']
  else if oldEndMatch tag s
  then s.take (s.length - 15) ++ repl
  else s

/-- Decomposition of a list at its last `.`: returns the part before and
after it, the part after containing no further dot. -/
def splitLastDot : List Char → Option (List Char × List Char)
  | [] => none
  | c :: t =>
    match splitLastDot t with
    | some (x, y) => some (c :: x, y)
    | none => if c = '.' then some ([], t) else none

/-- Non-separator test used when isolating a path's basename. -/
def neSlash (c : Char) : Bool := c ≠ '/'

/-- Model of `os.path.splitext(s)[-1]` (POSIX): the extension of the
basename, empty when the basename has no dot or only leading dots. -/
def splitextExt (s : List Char) : List Char :=
  let b := (s.reverse.takeWhile neSlash).reverse
  match splitLastDot b with
  | some (x, y) => if x.any (fun c => c ≠ '.') then '.' :: y else []
  | none => []

/-- Tail of the literal pattern `/c/250x250_80_a2/custom-thumb`. -/
def ctThumbTail : List Char := "c/250x250_80_a2/custom-thumb".data

/-- Tail of the literal pattern `/c/250x250_80_a2/img-master`. -/
def cMasterTail : List Char := "c/250x250_80_a2/img-master".data

/-- Model of `generate_image_url` from `src/helpers/pixiv_utils.py`:
rewrites the thumbnail path segments to `/img-master`, normalizes the
resolution suffix to `_master1200.jpg`, and substitutes the page index. -/
def generate_image_url (artwork_url : List Char) (image : Nat) : List Char :=
  let url := scanLit '/' ctThumbTail "/img-master".data artwork_url
  let url := scanLit '/' cMasterTail "/img-master".data url
  let url := subSuffixNew ms1200 url
  subP image url

/-- Model of `generate_gif_url` from `src/helpers/pixiv_utils.py`. -/
def generate_gif_url (artwork_url : List Char) : List Char :=
  let url := scanLit '/' ctThumbTail "/img-zip-ugoira".data artwork_url
  let url := scanLit '/' cMasterTail "/img-zip-ugoira".data url
  subSuffixNew "_ugoira600x600.zip".data url

/-- Model of the historical `construct_image_url` from
`src/album_downloader.py` and `src/helpers/url_utils.py` (separate suffix
substitutions with an unescaped dot). -/
def construct_image_url (artwork_url : List Char) (image : Nat) : List Char :=
  let url := scanLit '/' ctThumbTail "/img-master".data artwork_url
  let url := scanLit '/' cMasterTail "/img-master".data url
  let url := subEndOld "_square1200".data ms1200 url
  let url := subEndOld "_custom1200".data ms1200 url
  subP image url

/-- Canonical prefix of rewritten full-resolution image URLs. -/
def imgBase : List Char := "https://i.pximg.net/img-master/img/".data

/-- Canonical full-resolution still-image URL with date/id path `mid` and
page token digits `pgl`. -/
def canonUrl (mid pgl : List Char) : List Char :=
  imgBase ++ (mid ++ ("_p".data ++ (pgl ++ ms1200)))

/-- Characters allowed in the date/id path of a thumbnail URL. -/
abbrev MidOk (mid : List Char) : Prop := ∀ c ∈ mid, c.isDigit = true ∨ c = '/'

/-- Host of Pixiv thumbnail asset URLs. -/
def thumbHost : List Char := "https://i.pximg.net".data

/-- Metadata record of one artwork, as found under `userIllusts` in the
preload payload. Absent dictionary keys are `none`. -/
structure Artwork where
  id : List Char
  url : List Char
  pageCount : Option Int
  illustType : Option Int
deriving DecidableEq

/-- Result of `handle_artwork_type` in `src/album_downloader.py`: the
function dispatches on `illustType` and has no other branch, so any
other tag falls through with no action. -/
inductive HandleResult
  | processImages
  | processGifs
  | skipped
deriving DecidableEq

/-- Model of `handle_artwork_type` (`src/album_downloader.py`):
`illustType in (0, 1)` selects the image path, `illustType == 2` the GIF
path, anything else does nothing. -/
def handle_artwork_type (a : Artwork) : HandleResult :=
  match a.illustType with
  | some t =>
    if t = 0 ∨ t = 1 then HandleResult.processImages
    else if t = 2 then HandleResult.processGifs
    else HandleResult.skipped
  | none => HandleResult.skipped

/-- One `illust` entry of the preload payload: its `userIllusts`
dictionary, when present, maps artwork-id strings to artwork records. -/
structure IllustEntry where
  userIllusts : Option (List (List Char × Artwork))
deriving DecidableEq

/-- Decoded `meta-preload-data` payload. -/
structure PreloadData where
  illust : Option (List (List Char × IllustEntry))
deriving DecidableEq

/-- Abstracted HTTP response of the artwork page GET: its status code and
the embedded `meta-preload-data` element — `none` when the element is
absent, `some none` when its content is not valid JSON, `some (some d)`
when it decodes to `d`. -/
structure PageResponse where
  status : Nat
  meta : Option (Option PreloadData)
deriving DecidableEq

/-- Exceptions of `ArtworkDownloader.fetch_artwork_data`: the
`requests.HTTPError` of `raise_for_status`, the `AttributeError` from
calling `.get` on the absent element, the `json.JSONDecodeError`, and the
`ValueError('No artwork ID found')`. -/
inductive FetchError
  | httpError (code : Nat)
  | attrError
  | jsonError
  | valueError
deriving DecidableEq

/-- First match of the regex `artworks/(\d+)` in a URL (Python
`re.search`): the leftmost occurrence of the literal `artworks/` followed
by at least one digit, capturing the maximal digit run. -/
def findArtId : List Char → Option (List Char)
  | [] => none
  | c :: t =>
    if "artworks/".data.isPrefixOf (c :: t) && headDigit ((c :: t).drop 9)
    then some (((c :: t).drop 9).takeWhile Char.isDigit)
    else findArtId t

/-- Python `dict` lookup on the association list modelling `userIllusts`. -/
def alookup (aid : List Char) : List (List Char × Artwork) → Option Artwork
  | [] => none
  | (k, v) :: t => if k = aid then some v else alookup aid t

/-- Model of `ArtworkDownloader.fetch_artwork_data`
(`src/album_downloader.py`): `raise_for_status` is called when the status
is not 200 but only raises for codes in `[400, 600)`; then the
`meta-preload-data` element is read (`AttributeError` when absent), its
content JSON-decoded (`JSONDecodeError` when invalid), and the artwork ID
extracted from the URL (`ValueError` when `artworks/<digits>` does not
occur). -/
def fetch_artwork_data (url : List Char) (resp : PageResponse) :
    Except FetchError (List Char × PreloadData) :=
  if resp.status ≠ 200 ∧ 400 ≤ resp.status ∧ resp.status < 600 then
    Except.error (FetchError.httpError resp.status)
  else
    match resp.meta with
    | none => Except.error FetchError.attrError
    | some none => Except.error FetchError.jsonError
    | some (some d) =>
      match findArtId url with
      | none => Except.error FetchError.valueError
      | some aid => Except.ok (aid, d)

/-- Model of `ArtworkDownloader.download` (`src/album_downloader.py`):
after fetching, it walks `data['illust']` and processes only the
artworks found under `userIllusts` at the requested ID; when the ID is
absent (or there is no `illust` key) it processes nothing and returns
without error. -/
def ArtworkDownloader.download (url : List Char) (resp : PageResponse) :
    Except FetchError (List Artwork) :=
  match fetch_artwork_data url resp with
  | Except.error e => Except.error e
  | Except.ok (aid, d) =>
    match d.illust with
    | none => Except.ok []
    | some entries =>
      Except.ok (entries.filterMap (fun e =>
        match e.2.userIllusts with
        | none => none
        | some ui => alookup aid ui))

/-- Model of `os.path.join` / `pathlib` `/` for a relative name. -/
def joinP (dir name : List Char) : List Char :=
  if dir = [] then name
  else if dir.getLast? = some '/' then dir ++ name
  else dir ++ '/' :: name

/-- One performed page download of `process_artwork_images`: its 0-based
page index, the constructed image URL, the formatted output filename and
the full destination path. -/
structure PageDl where
  index : Nat
  url : List Char
  filename : List Char
  path : List Char
deriving DecidableEq

/-- Filename formatted by the historical `save_image_from_response`
(`src/album_downloader.py`):
`f"{artwork.get('id')}_p{image}_master1200{file_extension}"` with the
extension taken from `os.path.splitext` of the image URL. -/
def save_image_filename (a : Artwork) (image : Nat) (url : List Char) : List Char :=
  a.id ++ "_p".data ++ natChars image ++ "_master1200".data ++ splitextExt url

/-- Recursion of `process_artwork_images` over the page indices: each
iteration constructs the page URL, performs the GET (status given by the
oracle `statusOf`), and either records the saved page or stops with the
status of the failing response (the raised exception). -/
def process_artwork_images_go (statusOf : Nat → Nat) (a : Artwork) (dir : List Char) :
    List Nat → List PageDl × Option Nat
  | [] => ([], none)
  | k :: ks =>
    let u := construct_image_url a.url k
    if statusOf k = 200 ∨ statusOf k = 403 then
      let r := process_artwork_images_go statusOf a dir ks
      ({ index := k, url := u,
         filename := save_image_filename a k u,
         path := joinP dir (save_image_filename a k u) } :: r.1, r.2)
    else ([], some (statusOf k))

/-- Model of `process_artwork_images` (`src/album_downloader.py`): loops
`for image in range(artwork.get('pageCount', 1))`, downloading one page
per index. -/
def process_artwork_images (statusOf : Nat → Nat) (a : Artwork) (dir : List Char) :
    List PageDl × Option Nat :=
  process_artwork_images_go statusOf a dir (List.range (a.pageCount.getD 1).toNat)

/-- Side effects of the download helpers, recorded in program order. -/
inductive Ev
  | httpGet (url : List Char)
  | writeFile (path : List Char)
  | jobUpdate
  | advanceOverall
  | mkdirP (path : List Char)
  | extractZip (zip dest : List Char)
  | saveGif (path : List Char) (base : List Char) (appended : List (List Char))
  | deleteFile (path : List Char)
  | deleteDir (path : List Char)
deriving DecidableEq

/-- Fatal outcomes of the download helpers
(`src/helpers/download_utils.py`): the abort on a status outside
`{200, 403}` (the spec's `TransferError`) and the `IndexError` of
`images[0]` when no frame decodes. -/
inductive RunErr
  | transfer (status : Nat)
  | noFrames
deriving DecidableEq

/-- Model of `download_with_progress` (`src/helpers/download_utils.py`):
streams the body to `path`; per-page progress updates are suppressed for
archives (`is_gif`), and the overall counter is advanced at the end of
the stream in every case. -/
def download_with_progress (path : List Char) (isGif : Bool) : List Ev :=
  Ev.writeFile path :: ((if isGif then [] else [Ev.jobUpdate]) ++ [Ev.advanceOverall])

/-- Model of `save_image_from_response` (`src/helpers/download_utils.py`):
rewrites the URL, performs the GET (status supplied by the caller as the
response's status), exits on a status outside `{200, 403}`, otherwise
formats the filename and streams the body to the final path. -/
def save_image_from_response (status : Nat) (a : Artwork) (image : Nat)
    (download_path : List Char) : List Ev × Option RunErr :=
  let image_url := generate_image_url a.url image
  if status = 200 ∨ status = 403 then
    let fname := a.id ++ "_p".data ++ natChars image ++ "_master1200".data ++
      splitextExt image_url
    (Ev.httpGet image_url :: download_with_progress (joinP download_path fname) false, none)
  else ([Ev.httpGet image_url], some (RunErr.transfer status))

/-- Python string comparison (code-point lexicographic) as used by
`sorted`. -/
def lexLe : List Char → List Char → Bool
  | [], _ => true
  | _ :: _, [] => false
  | a :: ta, b :: tb => if a < b then true else if a = b then lexLe ta tb else false

/-- Ascending insertion step of the sort model. -/
def pyInsert (x : List Char) : List (List Char) → List (List Char)
  | [] => [x]
  | y :: ys => if lexLe x y then x :: y :: ys else y :: pyInsert x ys

/-- Model of Python `sorted` on lists of strings. -/
def pySorted (l : List (List Char)) : List (List Char) := l.foldr pyInsert []

/-- Filter of `create_gif`: `file.endswith(('.jpg', '.png', '.jpeg'))`. -/
def hasImgExt (f : List Char) : Bool :=
  ".jpg".data.isSuffixOf f || ".png".data.isSuffixOf f || ".jpeg".data.isSuffixOf f

/-- Model of `save_gif_from_response` (`src/helpers/download_utils.py`)
with its inner `create_gif` and `extract_gif`: on an accepted status the
archive is streamed to `<id>.zip` (advancing the overall counter at
stream end), extracted into `<id>_extracted`, the frame files (the
directory listing `listing`) are filtered by extension and sorted, the
animation is saved as `<id>.gif` from the first frame with the remaining
frames appended, and the archive and extraction directory are removed.
Frame decoding (`Image.open`) is abstracted as always succeeding. -/
def save_gif_from_response (status : Nat) (a : Artwork) (download_path : List Char)
    (listing : List (List Char)) : List Ev × Option RunErr :=
  let gif_url := generate_gif_url a.url
  if status = 200 ∨ status = 403 then
    let zipP := joinP download_path (a.id ++ ".zip".data)
    let extd := joinP download_path (a.id ++ "_extracted".data)
    let pre := Ev.httpGet gif_url :: download_with_progress zipP true ++
      [Ev.mkdirP extd, Ev.extractZip zipP extd]
    match pySorted (listing.filter hasImgExt) with
    | [] => (pre, some RunErr.noFrames)
    | f :: rest =>
      (pre ++ [Ev.saveGif (joinP download_path (a.id ++ ".gif".data)) f rest,
               Ev.deleteFile zipP, Ev.deleteDir extd], none)
  else ([Ev.httpGet gif_url], some (RunErr.transfer status))

/-- Line-boundary characters of Python `str.splitlines`. -/
def lineBreakChar (c : Char) : Bool :=
  c = '\n' || c = '\r' || c = '\x0b' || c = '\x0c' ||
  c = '\x1c' || c = '\x1d' || c = '\x1e' || c = '\x85' ||
  c = ' ' || c = ' '

/-- Recursion of the `splitlines` model: `cur` holds the reversed current
line, `lastCR` records that the previous character was a carriage return
(so that an immediately following newline is part of the same `\r\n`
boundary). -/
def splitlinesAux : List Char → List Char → Bool → List (List Char)
  | [], cur, _ => if cur = [] then [] else [cur.reverse]
  | c :: t, cur, lastCR =>
    if lastCR && c = '\n' then splitlinesAux t cur false
    else if lineBreakChar c then cur.reverse :: splitlinesAux t [] (c = '\r')
    else splitlinesAux t (c :: cur) false

/-- Model of Python `str.splitlines` as used by `read_file`
(`src/main.py`). -/
def splitlines (s : List Char) : List (List Char) := splitlinesAux s [] false

/-- Model of Python substring membership `pat in s`. -/
def occursB (pat : List Char) : List Char → Bool
  | [] => pat.isEmpty
  | c :: t => pat.isPrefixOf (c :: t) || occursB pat t

/-- The host filter of `process_urls` (`src/main.py`). -/
def HOST_BASE_LINK : List Char := "www.pixiv.net".data

/-- Model of `write_file(filename, content, mode='a')` (`src/main.py`):
appends `f"{content}\n"` to the file contents. -/
def write_file_append (file content : List Char) : List Char :=
  file ++ (content ++ ['\n'])

/-- Recursion of `process_urls` (`src/main.py`): `already` is the set of
ledger lines read once before the loop; `ok` tells whether
`download_album` returns normally for a URL. Returns the URLs submitted
to `download_album` (in order), the successfully downloaded ones (each
appended to the ledger file), and the final ledger file contents; a
failing download raises, aborting the remaining URLs with no append for
the failing one. -/
def process_urls_go (ok : List Char → Bool) (already : List (List Char)) :
    List (List Char) → List Char → List (List Char) × List (List Char) × List Char
  | [], f => ([], [], f)
  | u :: rest, f =>
    if occursB HOST_BASE_LINK u then
      if u ∈ already then process_urls_go ok already rest f
      else if ok u then
        let r := process_urls_go ok already rest (write_file_append f u)
        (u :: r.1, u :: r.2.1, r.2.2)
      else ([u], [], f)
    else process_urls_go ok already rest f

/-- Model of `process_urls` (`src/main.py`) acting on the ledger file
contents. -/
def process_urls (ok : List Char → Bool) (urls : List (List Char)) (ledger : List Char) :
    List (List Char) × List (List Char) × List Char :=
  process_urls_go ok (splitlines ledger) urls ledger

/-- Worker cap `MAX_WORKERS` from `src/helpers/config.py`. -/
def MAX_WORKERS : Nat := 10

/-- Modelled from the spec: the current per-artwork download scheduler
(the `ThreadPoolExecutor` submission loop of the album downloader that
`src/main.py` invokes and whose futures
`helpers.download_utils.manage_running_tasks` services) is not among the
sources; following the spec, the N page tasks are submitted in index
order to a worker pool of fixed capacity `MAX_WORKERS`, and a task starts
only when a slot frees, so task `i` runs in wave `i / MAX_WORKERS`. -/
def poolWave (cap i : Nat) : Nat := i / cap

/-- Tasks of one artwork (page indices below `n`) running concurrently in
wave `w` of the spec-modelled worker pool. -/
def runningIn (cap n w : Nat) : Finset Nat :=
  (Finset.range n).filter (fun i => poolWave cap i = w)

/-- Propositional form of the lexicographic string order. -/
def LexLe (a b : List Char) : Prop := lexLe a b = true

/-- Thumbnail-style artwork URL as served by Pixiv: the thumbnail asset
host, one of the two thumbnail path segments, the digits-and-slashes
date/id path, a page token `_p<digits>`, and one of the two thumbnail
resolution suffixes. -/
def ThumbStyle (u : List Char) : Prop :=
  ∃ seg mid pg sfx,
    (seg = "/c/250x250_80_a2/custom-thumb".data ∨
      seg = "/c/250x250_80_a2/img-master".data) ∧
    MidOk mid ∧ mid ≠ [] ∧
    pg.all Char.isDigit = true ∧ pg ≠ [] ∧
    (sfx = "_square1200.jpg".data ∨ sfx = "_custom1200.jpg".data) ∧
    u = thumbHost ++ (seg ++ ("/img/".data ++ (mid ++ ("_p".data ++ (pg ++ sfx)))))

theorem digitChar_isDigit (d : Nat) : (digitChar d).isDigit = true := by
  unfold digitChar
  split <;> decide

theorem charVal_digitChar (d : Nat) (h : d < 10) : charVal (digitChar d) = d := by
  unfold digitChar charVal
  interval_cases d <;> decide

theorem digitsVal_append_single (l : List Char) (c : Char) :
    digitsVal (l ++ [c]) = 10 * digitsVal l + charVal c := by
  simp [digitsVal, List.foldl_append]

theorem natCharsAux_spec (f : Nat) : ∀ n, n ≤ f →
    natCharsAux (f + 1) n ≠ [] ∧
    (natCharsAux (f + 1) n).all Char.isDigit = true ∧
    digitsVal (natCharsAux (f + 1) n) = n := by
  induction f with
  | zero =>
    intro n hn
    have h0 : n = 0 := Nat.le_zero.mp hn
    subst h0
    refine ⟨by simp [natCharsAux], by simp [natCharsAux, digitChar_isDigit], ?_⟩
    simp [natCharsAux, digitsVal, charVal, digitChar]
  | succ f ih =>
    intro n hn
    by_cases hlt : n < 10
    · refine ⟨by simp [natCharsAux, hlt], by simp [natCharsAux, hlt, digitChar_isDigit], ?_⟩
      simp [natCharsAux, hlt, digitsVal, charVal_digitChar n hlt]
    · have hd : n / 10 ≤ f := by omega
      obtain ⟨h1, h2, h3⟩ := ih (n / 10) hd
      have hstep : natCharsAux (f + 1 + 1) n =
          natCharsAux (f + 1) (n / 10) ++ [digitChar (n % 10)] := by
        simp [natCharsAux, hlt]
      refine ⟨by simp [hstep], ?_, ?_⟩
      · simp only [hstep, List.all_append, h2, Bool.true_and, List.all_cons, List.all_nil,
          Bool.and_true]
        exact digitChar_isDigit (n % 10)
      · rw [hstep, digitsVal_append_single, h3, charVal_digitChar (n % 10) (by omega)]
        omega

theorem natChars_ne_nil (n : Nat) : natChars n ≠ [] :=
  (natCharsAux_spec n n (Nat.le_refl n)).1

theorem natChars_all_digit (n : Nat) : (natChars n).all Char.isDigit = true :=
  (natCharsAux_spec n n (Nat.le_refl n)).2.1

theorem digitsVal_natChars (n : Nat) : digitsVal (natChars n) = n :=
  (natCharsAux_spec n n (Nat.le_refl n)).2.2

theorem natChars_injective : Function.Injective natChars := by
  intro a b h
  have := digitsVal_natChars a
  rw [h, digitsVal_natChars] at this
  omega

theorem natChars_mem_isDigit {c : Char} {n : Nat} (h : c ∈ natChars n) : c.isDigit = true := by
  have := natChars_all_digit n
  rw [List.all_eq_true] at this
  exact this c h

theorem scanLitAux_skip (p : Char) (ps repl : List Char) :
    ∀ s k, scanLitAux p ps repl s k = scanLit p ps repl (s.drop k) := by
  intro s
  induction s with
  | nil => intro k; cases k <;> simp [scanLit, scanLitAux]
  | cons c rest ih =>
    intro k
    cases k with
    | zero => simp [scanLit]
    | succ k => simpa [scanLitAux] using ih k

theorem scanLit_nil (p : Char) (ps repl : List Char) : scanLit p ps repl [] = [] := rfl

theorem scanLit_cons_pos (p : Char) (ps repl : List Char) {c : Char} {rest : List Char}
    (h : (p :: ps).isPrefixOf (c :: rest) = true) :
    scanLit p ps repl (c :: rest) = repl ++ scanLit p ps repl (rest.drop ps.length) := by
  rw [scanLit, scanLitAux, if_pos h, scanLitAux_skip]

theorem scanLit_cons_neg (p : Char) (ps repl : List Char) {c : Char} {rest : List Char}
    (h : ¬ (p :: ps).isPrefixOf (c :: rest) = true) :
    scanLit p ps repl (c :: rest) = c :: scanLit p ps repl rest := by
  rw [scanLit, scanLitAux, if_neg h]
  rfl

theorem scanLit_match (p : Char) (ps repl t : List Char) :
    scanLit p ps repl ((p :: ps) ++ t) = repl ++ scanLit p ps repl t := by
  have h : (p :: ps).isPrefixOf (p :: ps ++ t) = true := by
    rw [List.isPrefixOf_iff_prefix]
    exact ⟨t, rfl⟩
  calc scanLit p ps repl (p :: (ps ++ t))
      = repl ++ scanLit p ps repl ((ps ++ t).drop ps.length) := scanLit_cons_pos p ps repl h
    _ = repl ++ scanLit p ps repl t := by rw [List.drop_left]

theorem scanLit_eq_of_not_mem {x p : Char} {ps : List Char} (repl : List Char)
    (hx : x ∈ p :: ps) : ∀ {s : List Char}, x ∉ s → scanLit p ps repl s = s := by
  intro s
  induction s with
  | nil => intro _; rfl
  | cons c rest ih =>
    intro hs
    have hno : ¬ (p :: ps).isPrefixOf (c :: rest) = true := by
      intro hpre
      rw [List.isPrefixOf_iff_prefix] at hpre
      exact hs (hpre.mem hx)
    rw [scanLit_cons_neg p ps repl hno, ih (fun hm => hs (List.mem_cons_of_mem c hm))]

theorem hasAdj_cons_false {a b c : Char} {t : List Char}
    (h : hasAdj a b (c :: t) = false) : hasAdj a b t = false := by
  cases t with
  | nil => rfl
  | cons d t' =>
    rw [hasAdj, Bool.or_eq_false_iff] at h
    exact h.2

theorem scanLit_eq_of_no_adj {a b : Char} {ps repl : List Char} :
    ∀ {s : List Char}, hasAdj a b s = false → scanLit a (b :: ps) repl s = s := by
  intro s
  induction s with
  | nil => intro _; rfl
  | cons c rest ih =>
    intro hs
    have hno : ¬ (a :: b :: ps).isPrefixOf (c :: rest) = true := by
      intro hpre
      rw [List.isPrefixOf_iff_prefix] at hpre
      obtain ⟨t, ht⟩ := hpre
      cases rest with
      | nil => simp at ht
      | cons d t' =>
        rw [List.cons_append, List.cons_append] at ht
        injection ht with h1 h2
        injection h2 with h3 _
        rw [hasAdj, h1, h3] at hs
        simp at hs
    rw [scanLit_cons_neg a (b :: ps) repl hno, ih (hasAdj_cons_false hs)]

theorem hasAdj_eq_false_of_not_mem {a b : Char} :
    ∀ {s : List Char}, b ∉ s → hasAdj a b s = false := by
  intro s
  induction s with
  | nil => intro _; rfl
  | cons c rest ih =>
    intro hs
    cases rest with
    | nil => rfl
    | cons d t =>
      rw [hasAdj, Bool.or_eq_false_iff]
      constructor
      · have : d ≠ b := fun h => hs (by simp [h])
        simp [this]
      · exact ih (fun hm => hs (List.mem_cons_of_mem c hm))

theorem hasAdj_append_eq_false {a b : Char} {x y : List Char}
    (hx : hasAdj a b x = false) (hy : hasAdj a b y = false)
    (hbd : ∀ cx cy, x.getLast? = some cx → y.head? = some cy → ¬(cx = a ∧ cy = b)) :
    hasAdj a b (x ++ y) = false := by
  induction x with
  | nil => simpa using hy
  | cons c rest ih =>
    cases rest with
    | nil =>
      cases y with
      | nil => simpa using hx
      | cons d t =>
        rw [List.singleton_append, hasAdj, Bool.or_eq_false_iff]
        refine ⟨?_, hy⟩
        have hne := hbd c d rfl rfl
        by_cases h1 : c = a
        · by_cases h2 : d = b
          · exact absurd ⟨h1, h2⟩ hne
          · simp [h2]
        · simp [h1]
    | cons d t =>
      rw [List.cons_append, List.cons_append]
      have hx' : hasAdj a b (d :: t) = false := hasAdj_cons_false hx
      have h1 : (c = a && d = b) = false := by
        rw [hasAdj, Bool.or_eq_false_iff] at hx
        exact hx.1
      have ihr : hasAdj a b ((d :: t) ++ y) = false := by
        apply ih hx'
        intro cx cy hcx hcy
        exact hbd cx cy (by rw [List.getLast?_cons_cons]; exact hcx) hcy
      rw [List.cons_append] at ihr
      rw [hasAdj, Bool.or_eq_false_iff]
      exact ⟨h1, ihr⟩

theorem scanLit_append_fresh {a b : Char} {ps repl : List Char} {pre s : List Char}
    (hb : b ∉ pre) (hs : ∀ x, s.head? = some x → x ≠ b) :
    scanLit a (b :: ps) repl (pre ++ s) = pre ++ scanLit a (b :: ps) repl s := by
  induction pre with
  | nil => rfl
  | cons c rest ih =>
    have hb' : b ∉ rest := fun h => hb (List.mem_cons_of_mem c h)
    have hno : ¬ (a :: b :: ps).isPrefixOf (c :: (rest ++ s)) = true := by
      intro hpre
      rw [List.isPrefixOf_iff_prefix] at hpre
      obtain ⟨t, ht⟩ := hpre
      injection ht with h1 h2
      cases rest with
      | nil =>
        simp only [List.nil_append] at h2
        have hhd : s.head? = some b := by
          rw [← h2]; rfl
        exact hs b hhd rfl
      | cons c' rest' =>
        rw [List.cons_append] at h2
        injection h2 with h3 _
        exact hb (by simp [← h3])
    rw [List.cons_append, scanLit_cons_neg _ _ _ hno, ih hb']
    rfl

theorem subPAux_skip (k : Nat) :
    ∀ s : List Char, subPAux k s true = subPAux k (s.dropWhile Char.isDigit) false := by
  intro s
  induction s with
  | nil => rfl
  | cons c rest ih =>
    by_cases hc : c.isDigit
    · simpa [subPAux, hc, List.dropWhile_cons] using ih
    · simp [subPAux, hc, List.dropWhile_cons]

theorem subP_cons_not {k : Nat} {c : Char} {rest : List Char}
    (h : (c = 'p' && headDigit rest) = false) :
    subP k (c :: rest) = c :: subP k rest := by
  simp [subP, subPAux, h]

theorem subP_cons_match {k : Nat} {rest : List Char} (h : headDigit rest = true) :
    subP k ('p' :: rest) = 'p' :: (natChars k ++ subP k (rest.dropWhile Char.isDigit)) := by
  simp [subP, subPAux, h, subPAux_skip]

theorem dropWhile_all_append {p : Char → Bool} {ds b : List Char}
    (hds : ds.all p = true) (hb : ∀ x, b.head? = some x → p x = false) :
    (ds ++ b).dropWhile p = b := by
  induction ds with
  | nil =>
    cases b with
    | nil => rfl
    | cons x t => simp [List.dropWhile_cons, hb x rfl]
  | cons d ds' ih =>
    rw [List.all_cons, Bool.and_eq_true] at hds
    simp [List.dropWhile_cons, hds.1, ih hds.2]

theorem subP_match {k : Nat} {ds b : List Char}
    (hne : ds ≠ []) (hds : ds.all Char.isDigit = true)
    (hb : headDigit b = false) :
    subP k ('p' :: (ds ++ b)) = 'p' :: (natChars k ++ subP k b) := by
  cases ds with
  | nil => exact absurd rfl hne
  | cons d ds' =>
    rw [List.all_cons, Bool.and_eq_true] at hds
    have hhd : headDigit ((d :: ds') ++ b) = true := by
      simp [headDigit, hds.1]
    rw [subP_cons_match hhd, dropWhile_all_append (by simp [hds.1, hds.2])]
    intro x hx
    cases b with
    | nil => simp at hx
    | cons y t =>
      injection hx with hxy
      subst hxy
      simpa [headDigit] using hb

theorem hasPDig_cons_false {c : Char} {t : List Char}
    (h : hasPDig (c :: t) = false) : hasPDig t = false := by
  cases t with
  | nil => rfl
  | cons d t' =>
    rw [hasPDig, Bool.or_eq_false_iff] at h
    exact h.2

theorem hasPDig_eq_false_of_not_mem :
    ∀ {s : List Char}, 'p' ∉ s → hasPDig s = false := by
  intro s
  induction s with
  | nil => intro _; rfl
  | cons c rest ih =>
    intro hs
    cases rest with
    | nil => rfl
    | cons d t =>
      rw [hasPDig, Bool.or_eq_false_iff]
      refine ⟨?_, ih (fun hm => hs (List.mem_cons_of_mem c hm))⟩
      have : c ≠ 'p' := fun h => hs (by simp [h])
      simp [this]

theorem hasPDig_append_eq_false {x y : List Char}
    (hx : hasPDig x = false) (hy : hasPDig y = false)
    (hbd : ∀ cx cy, x.getLast? = some cx → y.head? = some cy →
      ¬(cx = 'p' ∧ cy.isDigit = true)) :
    hasPDig (x ++ y) = false := by
  induction x with
  | nil => simpa using hy
  | cons c rest ih =>
    cases rest with
    | nil =>
      cases y with
      | nil => simpa using hx
      | cons d t =>
        rw [List.singleton_append, hasPDig, Bool.or_eq_false_iff]
        refine ⟨?_, hy⟩
        have hne := hbd c d rfl rfl
        by_cases h1 : c = 'p'
        · by_cases h2 : d.isDigit
          · exact absurd ⟨h1, h2⟩ hne
          · simp [h2]
        · simp [h1]
    | cons d t =>
      rw [List.cons_append, List.cons_append]
      have hx' : hasPDig (d :: t) = false := hasPDig_cons_false hx
      have h1 : (c = 'p' && d.isDigit) = false := by
        rw [hasPDig, Bool.or_eq_false_iff] at hx
        exact hx.1
      have ihr : hasPDig ((d :: t) ++ y) = false := by
        apply ih hx'
        intro cx cy hcx hcy
        exact hbd cx cy (by rw [List.getLast?_cons_cons]; exact hcx) hcy
      rw [List.cons_append] at ihr
      rw [hasPDig, Bool.or_eq_false_iff]
      exact ⟨h1, ihr⟩

theorem subP_append_fresh {k : Nat} :
    ∀ {x : List Char} {y : List Char}, hasPDig x = false →
    (∀ cx, x.getLast? = some cx → cx = 'p' → headDigit y = false) →
    subP k (x ++ y) = x ++ subP k y := by
  intro x
  induction x with
  | nil => intro y _ _; rfl
  | cons c rest ih =>
    intro y hx hbd
    cases rest with
    | nil =>
      have hguard : (c = 'p' && headDigit y) = false := by
        by_cases h1 : c = 'p'
        · simp [h1, hbd c rfl h1]
        · simp [h1]
      rw [List.singleton_append, subP_cons_not hguard]
      rfl
    | cons d t =>
      have h1 : (c = 'p' && d.isDigit) = false := by
        rw [hasPDig, Bool.or_eq_false_iff] at hx
        exact hx.1
      have hguard : (c = 'p' && headDigit ((d :: t) ++ y)) = false := by
        simpa [headDigit] using h1
      rw [List.cons_append, subP_cons_not hguard]
      have := ih (hasPDig_cons_false hx)
        (fun cx hcx => hbd cx (by rw [List.getLast?_cons_cons]; exact hcx))
      rw [List.cons_append] at this ⊢
      rw [this]
      rfl

theorem suffix_eq_of_append {p q s X : List Char} (hs : s = X ++ q) (hp : p <:+ s)
    (hl : p.length = q.length) : p = q := by
  obtain ⟨t, ht⟩ := hp
  subst hs
  exact List.append_inj_right ht (by
    have := congrArg List.length ht
    simp only [List.length_append] at this
    omega)

theorem suffix_of_suffix_le {p q s : List Char} (hp : p <:+ s) (hq : q <:+ s)
    (hl : q.length ≤ p.length) : q <:+ p := by
  obtain ⟨t1, ht1⟩ := hp
  obtain ⟨t2, ht2⟩ := hq
  have heq : t1 ++ p = t2 ++ q := ht1.trans ht2.symm
  have hlen : t1.length ≤ t2.length := by
    have := congrArg List.length heq
    simp only [List.length_append] at this
    omega
  have h2 : t1 ++ p = t2.take t1.length ++ (t2.drop t1.length ++ q) := by
    rw [← List.append_assoc, List.take_append_drop]
    exact heq
  have h3 := List.append_inj h2 (by simp [List.length_take]; omega)
  exact ⟨t2.drop t1.length, h3.2.symm⟩

theorem not_long_suffix {p q s X : List Char} (hs : s = X ++ q)
    (hq : q.length < p.length) (hne : q ≠ [])
    (hgl : ¬ p.getLast? = q.getLast?) : ¬ p <:+ s := by
  intro hp
  have hq' : q <:+ s := hs ▸ List.suffix_append X q
  obtain ⟨m, hm⟩ := suffix_of_suffix_le hp hq' (le_of_lt hq)
  apply hgl
  rw [← hm, List.getLast?_append]
  cases h : q.getLast? with
  | none => exact absurd (List.getLast?_eq_none_iff.mp h) hne
  | some c => simp [h]

theorem getLast?_append_of_ne_nil (X : List Char) {q : List Char} (h : q ≠ []) :
    (X ++ q).getLast? = q.getLast? := by
  rw [List.getLast?_append]
  cases hq : q.getLast? with
  | none => exact absurd (List.getLast?_eq_none_iff.mp hq) h
  | some c => simp

theorem subSuffixNew_end15 {repl X q : List Char} (hlen : q.length = 15)
    (hlast : q.getLast? ≠ some '\n') :
    subSuffixNew repl (X ++ q) =
      if q = "_square1200.jpg".data ∨ q = "_custom1200.jpg".data
      then X ++ repl else X ++ q := by
  have hne : q ≠ [] := by intro h; rw [h] at hlen; simp at hlen
  have h16 : ∀ p : List Char, p.getLast? = some '\n' → p.length = 16 →
      p.isSuffixOf (X ++ q) = false := by
    intro p hpl hplen
    rw [Bool.eq_false_iff]
    intro h
    refine not_long_suffix rfl (by omega) hne ?_ (List.isSuffixOf_iff_suffix.mp h)
    intro hEq
    exact hlast (by rw [← hEq, hpl])
  have h15 : ∀ p : List Char, p.length = 15 →
      (p.isSuffixOf (X ++ q) = true ↔ p = q) := by
    intro p hplen
    constructor
    · intro h
      exact suffix_eq_of_append rfl (List.isSuffixOf_iff_suffix.mp h) (by omega)
    · intro h
      subst h
      exact List.isSuffixOf_iff_suffix.mpr (List.suffix_append X p)
  have hcond16 : ("_square1200.jpg\n".data.isSuffixOf (X ++ q) ||
      "_custom1200.jpg\n".data.isSuffixOf (X ++ q)) = false := by
    rw [Bool.or_eq_false_iff]
    exact ⟨h16 _ (by decide) (by decide), h16 _ (by decide) (by decide)⟩
  have hlen' : (X ++ q).length - 15 = X.length := by
    simp only [List.length_append]
    omega
  have htake : (X ++ q).take ((X ++ q).length - 15) = X := by
    rw [hlen']
    exact List.take_left X q
  by_cases hq : q = "_square1200.jpg".data ∨ q = "_custom1200.jpg".data
  · have hcond15 : ("_square1200.jpg".data.isSuffixOf (X ++ q) ||
        "_custom1200.jpg".data.isSuffixOf (X ++ q)) = true := by
      rw [Bool.or_eq_true]
      rcases hq with h | h
      · exact Or.inl ((h15 _ (by decide)).mpr h.symm)
      · exact Or.inr ((h15 _ (by decide)).mpr h.symm)
    rw [subSuffixNew, if_neg (by rw [hcond16]; simp), if_pos (by rw [hcond15]), htake, if_pos hq]
  · push_neg at hq
    have hcond15 : ("_square1200.jpg".data.isSuffixOf (X ++ q) ||
        "_custom1200.jpg".data.isSuffixOf (X ++ q)) = false := by
      rw [Bool.or_eq_false_iff]
      constructor
      · rw [Bool.eq_false_iff]
        intro h
        exact hq.1 ((h15 _ (by decide)).mp h).symm
      · rw [Bool.eq_false_iff]
        intro h
        exact hq.2 ((h15 _ (by decide)).mp h).symm
    rw [subSuffixNew, if_neg (by rw [hcond16]; simp), if_neg (by rw [hcond15]; simp),
      if_neg (by push_neg; exact hq)]

theorem oldEndMatch_append15 (tag : List Char) (X : List Char) {q : List Char}
    (hlen : q.length = 15) : oldEndMatch tag (X ++ q) = oldEndMatch tag q := by
  have h1 : (X ++ q).length - 15 = X.length := by
    simp only [List.length_append]; omega
  have h2 : (X ++ q).drop ((X ++ q).length - 15) = q := by
    rw [h1, List.drop_left]
  have h3 : (15 ≤ (X ++ q).length) := by
    simp only [List.length_append]; omega
  have h4 : q.drop (q.length - 15) = q := by
    rw [hlen]; simp
  rw [oldEndMatch, oldEndMatch, h2, h4, decide_eq_true h3, decide_eq_true (by omega)]

theorem subEndOld_end15 {tag repl X q : List Char} (hlen : q.length = 15)
    (hc : ∃ c, q.getLast? = some c ∧ c ≠ '\n') :
    subEndOld tag repl (X ++ q) = if oldEndMatch tag q then X ++ repl else X ++ q := by
  obtain ⟨c, hcq, hcn⟩ := hc
  have hne : q ≠ [] := by
    intro h
    rw [h] at hcq
    simp at hcq
  have hl : (X ++ q).getLast? = some c := by rw [getLast?_append_of_ne_nil X hne, hcq]
  have hfirst : (((X ++ q).getLast? == some '\n') && oldEndMatch tag (X ++ q).dropLast) = false := by
    rw [hl]
    have : (some c == some '\n') = false := by
      simp only [beq_eq_false_iff_ne, ne_eq, Option.some.injEq]
      exact hcn
    rw [this, Bool.false_and]
  have hlen' : (X ++ q).length - 15 = X.length := by
    simp only [List.length_append]; omega
  have htake : (X ++ q).take ((X ++ q).length - 15) = X := by
    rw [hlen']
    exact List.take_left X q
  rw [subEndOld, if_neg (by rw [hfirst]; simp), oldEndMatch_append15 tag X hlen]
  by_cases hm : oldEndMatch tag q = true
  · rw [if_pos (by rw [hm]), htake, if_pos hm]
  · rw [if_neg hm, if_neg hm]

theorem splitLastDot_no_dot : ∀ {t : List Char}, (∀ c ∈ t, c ≠ '.') →
    splitLastDot t = none := by
  intro t
  induction t with
  | nil => intro _; rfl
  | cons c t' ih =>
    intro h
    rw [splitLastDot, ih (fun x hx => h x (List.mem_cons_of_mem c hx)),
      if_neg (h c (List.mem_cons_self c t'))]

theorem splitLastDot_append {x y : List Char} (hy : ∀ c ∈ y, c ≠ '.') :
    splitLastDot (x ++ '.' :: y) = some (x, y) := by
  induction x with
  | nil => rw [List.nil_append, splitLastDot, splitLastDot_no_dot hy, if_pos rfl]
  | cons c x' ih => rw [List.cons_append, splitLastDot, ih]

theorem splitextExt_of_decomp {s x y : List Char}
    (hb : (s.reverse.takeWhile neSlash).reverse = x ++ '.' :: y)
    (hy : ∀ c ∈ y, c ≠ '.') (hx : ∃ c ∈ x, c ≠ '.') :
    splitextExt s = '.' :: y := by
  rw [splitextExt]
  simp only [hb, splitLastDot_append hy]
  rw [if_pos]
  rw [List.any_eq_true]
  obtain ⟨c, hc1, hc2⟩ := hx
  exact ⟨c, hc1, by simpa using hc2⟩

theorem digit_ne {c d : Char} (hc : c.isDigit = true) (hd : d.isDigit = false) : c ≠ d := by
  intro h
  rw [h, hd] at hc
  exact Bool.false_ne_true hc

theorem subP_eq_of_no_match {k : Nat} {s : List Char} (h : hasPDig s = false) :
    subP k s = s := by
  have := subP_append_fresh (k := k) (y := ([] : List Char)) h (fun _ _ _ => rfl)
  simpa [subP, subPAux] using this

theorem takeWhile_append_all {p : Char → Bool} :
    ∀ {x : List Char} {y : List Char}, (∀ c ∈ x, p c = true) →
    (x ++ y).takeWhile p = x ++ y.takeWhile p := by
  intro x
  induction x with
  | nil => intro y _; rfl
  | cons c t ih =>
    intro y hall
    rw [List.cons_append, List.takeWhile_cons, if_pos (hall c (List.mem_cons_self c t)),
      ih (fun d hd => hall d (List.mem_cons_of_mem c hd))]
    rfl

theorem takeWhile_append_stop {p : Char → Bool} {z : Char} :
    ∀ {x : List Char} {y : List Char}, y.head? = some z → p z = false →
    (x ++ y).takeWhile p = x.takeWhile p := by
  intro x
  induction x with
  | nil =>
    intro y hy hz
    cases y with
    | nil => rfl
    | cons c t =>
      injection hy with hyz
      subst hyz
      simp [List.takeWhile_cons, hz]
  | cons c t ih =>
    intro y hy hz
    rw [List.cons_append, List.takeWhile_cons, List.takeWhile_cons]
    by_cases hp : p c = true
    · rw [if_pos hp, if_pos hp, ih hy hz]
    · rw [if_neg hp, if_neg hp]

theorem mid_not_mem {mid : List Char} (hmid : MidOk mid) {d : Char}
    (h1 : d.isDigit = false) (h2 : d ≠ '/') : d ∉ mid := by
  intro hd
  rcases hmid d hd with h | h
  · rw [h1] at h
    exact Bool.false_ne_true h
  · exact h2 h

theorem pg_not_mem {pg : List Char} (hpg : pg.all Char.isDigit = true) {d : Char}
    (h1 : d.isDigit = false) : d ∉ pg := by
  intro hd
  rw [List.all_eq_true] at hpg
  rw [hpg d hd] at h1
  simp at h1

theorem head?_append_ne_nil {x y : List Char} (h : x ≠ []) :
    (x ++ y).head? = x.head? := by
  cases x with
  | nil => exact absurd rfl h
  | cons c t => rfl

theorem head?_eq_mem {m : List Char} {c : Char} (h : m.head? = some c) : c ∈ m := by
  cases m with
  | nil => simp at h
  | cons a t =>
    injection h with h1
    subst h1
    exact List.mem_cons_self a t

theorem hasAdj_slash_c_canonical {mid pgl sfx : List Char}
    (hmid : MidOk mid) (hmne : mid ≠ [])
    (hpg : pgl.all Char.isDigit = true)
    (hsfx : sfx = "_square1200.jpg".data ∨ sfx = "_custom1200.jpg".data ∨ sfx = ms1200) :
    hasAdj '/' 'c' (imgBase ++ (mid ++ ("_p".data ++ (pgl ++ sfx)))) = false := by
  have hsfx_adj : hasAdj '/' 'c' sfx = false := by
    rcases hsfx with h | h | h <;> subst h <;> decide
  have hsfx_head : sfx.head? = some '_' := by
    rcases hsfx with h | h | h <;> subst h <;> rfl
  have h2 : hasAdj '/' 'c' (pgl ++ sfx) = false := by
    apply hasAdj_append_eq_false
      (hasAdj_eq_false_of_not_mem (pg_not_mem hpg (by decide))) hsfx_adj
    intro cx cy _ hcy hcc
    rw [hsfx_head] at hcy
    injection hcy with h
    rw [← h] at hcc
    exact absurd hcc.2 (by decide)
  have h3 : hasAdj '/' 'c' ("_p".data ++ (pgl ++ sfx)) = false := by
    apply hasAdj_append_eq_false (by decide) h2
    intro cx cy hcx _ hcc
    have hx : ("_p".data : List Char).getLast? = some 'p' := by decide
    rw [hx] at hcx
    injection hcx with h
    rw [← h] at hcc
    exact absurd hcc.1 (by decide)
  have h4 : hasAdj '/' 'c' (mid ++ ("_p".data ++ (pgl ++ sfx))) = false := by
    apply hasAdj_append_eq_false
      (hasAdj_eq_false_of_not_mem (mid_not_mem hmid (by decide) (by decide))) h3
    intro cx cy _ hcy hcc
    rw [head?_append_ne_nil (by decide)] at hcy
    have hy : ("_p".data : List Char).head? = some '_' := rfl
    rw [hy] at hcy
    injection hcy with h
    rw [← h] at hcc
    exact absurd hcc.2 (by decide)
  apply hasAdj_append_eq_false (by decide) h4
  intro cx cy _ hcy hcc
  rw [head?_append_ne_nil hmne] at hcy
  rcases hmid cy (head?_eq_mem hcy) with h | h
  · exact digit_ne h (by decide) hcc.2
  · rw [hcc.2] at h
    exact absurd h (by decide)

theorem hasPDig_canonical_head {mid : List Char} (hmid : MidOk mid) :
    hasPDig (imgBase ++ (mid ++ ['_'])) = false := by
  have h1 : hasPDig (mid ++ ['_']) = false := by
    apply hasPDig_append_eq_false
      (hasPDig_eq_false_of_not_mem (mid_not_mem hmid (by decide) (by decide))) (by decide)
    intro cx cy _ hcy hcc
    injection hcy with h
    rw [← h] at hcc
    exact absurd hcc.2 (by decide)
  apply hasPDig_append_eq_false (by decide) h1
  intro cx cy hcx _ hcc
  have hx : (imgBase : List Char).getLast? = some '/' := by decide
  rw [hx] at hcx
  injection hcx with h
  rw [← h] at hcc
  exact absurd hcc.1 (by decide)

theorem ctThumbTail_eq : ctThumbTail = 'c' :: "/250x250_80_a2/custom-thumb".data := rfl

theorem cMasterTail_eq : cMasterTail = 'c' :: "/250x250_80_a2/img-master".data := rfl

theorem host_base (Y : List Char) :
    thumbHost ++ ("/img-master".data ++ ("/img/".data ++ Y)) = imgBase ++ Y := rfl

theorem scans12_thumb {seg tail : List Char}
    (hseg : seg = "/c/250x250_80_a2/custom-thumb".data ∨
      seg = "/c/250x250_80_a2/img-master".data)
    (hxt : 'x' ∉ tail) (hbt : 'b' ∉ tail)
    (hadj : hasAdj '/' 'c' (thumbHost ++ ("/img-master".data ++ tail)) = false) :
    scanLit '/' cMasterTail "/img-master".data
      (scanLit '/' ctThumbTail "/img-master".data (thumbHost ++ (seg ++ tail))) =
    thumbHost ++ ("/img-master".data ++ tail) := by
  rcases hseg with h | h <;> subst h
  · have step1 : scanLit '/' ctThumbTail "/img-master".data
        (thumbHost ++ ("/c/250x250_80_a2/custom-thumb".data ++ tail)) =
        thumbHost ++ ("/img-master".data ++ tail) := by
      have e1 : ("/c/250x250_80_a2/custom-thumb".data : List Char) = '/' :: ctThumbTail := rfl
      rw [e1, ctThumbTail_eq]
      rw [scanLit_append_fresh (by decide) ?hs]
      case hs =>
        intro x hx
        rw [List.cons_append, List.head?_cons] at hx
        injection hx with hx
        subst hx
        decide
      rw [scanLit_match]
      rw [scanLit_eq_of_not_mem _ (by decide : 'x' ∈ '/' :: 'c' :: "/250x250_80_a2/custom-thumb".data) hxt]
    rw [step1, cMasterTail_eq]
    exact scanLit_eq_of_no_adj hadj
  · have step1 : scanLit '/' ctThumbTail "/img-master".data
        (thumbHost ++ ("/c/250x250_80_a2/img-master".data ++ tail)) =
        thumbHost ++ ("/c/250x250_80_a2/img-master".data ++ tail) := by
      rw [ctThumbTail_eq]
      apply scanLit_eq_of_not_mem _
        (by decide : 'b' ∈ '/' :: 'c' :: "/250x250_80_a2/custom-thumb".data)
      simp only [List.mem_append, not_or]
      refine ⟨by decide, by decide, hbt⟩
    rw [step1]
    have e2 : ("/c/250x250_80_a2/img-master".data : List Char) = '/' :: cMasterTail := rfl
    rw [e2, cMasterTail_eq]
    rw [scanLit_append_fresh (by decide) ?hs2]
    case hs2 =>
      intro x hx
      rw [List.cons_append, List.head?_cons] at hx
      injection hx with hx
      subst hx
      decide
    rw [scanLit_match]
    rw [scanLit_eq_of_not_mem _ (by decide : 'x' ∈ '/' :: 'c' :: "/250x250_80_a2/img-master".data) hxt]

theorem subP_canon_tail {mid pg : List Char} (k : Nat) (hmid : MidOk mid)
    (hpg : pg.all Char.isDigit = true) (hpne : pg ≠ []) :
    subP k ((imgBase ++ mid ++ "_p".data ++ pg) ++ ms1200) = canonUrl mid (natChars k) := by
  have hassoc2 : (imgBase ++ mid ++ "_p".data ++ pg) ++ ms1200 =
      (imgBase ++ (mid ++ ['_'])) ++ ('p' :: (pg ++ ms1200)) := by
    simp [List.append_assoc]
  rw [hassoc2, subP_append_fresh (hasPDig_canonical_head hmid) ?hbd]
  case hbd =>
    intro _ _ _
    rfl
  rw [subP_match hpne hpg (by decide : headDigit ms1200 = false)]
  rw [subP_eq_of_no_match (by decide : hasPDig ms1200 = false)]
  simp [canonUrl, List.append_assoc]

theorem suffix_subP_canon {mid pg sfx : List Char} (k : Nat)
    (hmid : MidOk mid)
    (hpg : pg.all Char.isDigit = true) (hpne : pg ≠ [])
    (hsfx : sfx = "_square1200.jpg".data ∨ sfx = "_custom1200.jpg".data ∨ sfx = ms1200) :
    subP k (subSuffixNew ms1200 (imgBase ++ (mid ++ ("_p".data ++ (pg ++ sfx))))) =
      canonUrl mid (natChars k) := by
  have hassoc : imgBase ++ (mid ++ ("_p".data ++ (pg ++ sfx))) =
      (imgBase ++ mid ++ "_p".data ++ pg) ++ sfx := by
    simp [List.append_assoc]
  have hsfxlen : sfx.length = 15 := by
    rcases hsfx with h | h | h <;> subst h <;> decide
  have hsfxlast : sfx.getLast? ≠ some '\n' := by
    rcases hsfx with h | h | h <;> subst h <;> decide
  rw [hassoc, subSuffixNew_end15 hsfxlen hsfxlast]
  have hres : (if sfx = "_square1200.jpg".data ∨ sfx = "_custom1200.jpg".data
      then (imgBase ++ mid ++ "_p".data ++ pg) ++ ms1200
      else (imgBase ++ mid ++ "_p".data ++ pg) ++ sfx) =
      (imgBase ++ mid ++ "_p".data ++ pg) ++ ms1200 := by
    rcases hsfx with h | h | h
    · rw [if_pos (Or.inl h)]
    · rw [if_pos (Or.inr h)]
    · rw [if_neg (by subst h; decide), h]
  rw [hres]
  exact subP_canon_tail k hmid hpg hpne

theorem tail_not_mem {mid pg sfx : List Char} {d : Char}
    (hmid : MidOk mid) (hpg : pg.all Char.isDigit = true)
    (hsfx : sfx = "_square1200.jpg".data ∨ sfx = "_custom1200.jpg".data)
    (hd : d.isDigit = false) (hds : d ≠ '/')
    (h1 : d ∉ ("/img/".data : List Char)) (h2 : d ∉ ("_p".data : List Char))
    (h3 : d ∉ ("_square1200.jpg".data : List Char))
    (h4 : d ∉ ("_custom1200.jpg".data : List Char)) :
    d ∉ "/img/".data ++ (mid ++ ("_p".data ++ (pg ++ sfx))) := by
  simp only [List.mem_append, not_or]
  refine ⟨h1, mid_not_mem hmid hd hds, h2, pg_not_mem hpg hd, ?_⟩
  rcases hsfx with h | h <;> subst h
  · exact h3
  · exact h4

theorem or3_of_or2 {sfx : List Char}
    (h : sfx = "_square1200.jpg".data ∨ sfx = "_custom1200.jpg".data) :
    sfx = "_square1200.jpg".data ∨ sfx = "_custom1200.jpg".data ∨ sfx = ms1200 := by
  rcases h with h | h
  · exact Or.inl h
  · exact Or.inr (Or.inl h)

theorem generate_image_url_thumb {seg mid pg sfx : List Char} (k : Nat)
    (hseg : seg = "/c/250x250_80_a2/custom-thumb".data ∨
      seg = "/c/250x250_80_a2/img-master".data)
    (hmid : MidOk mid) (hmne : mid ≠ [])
    (hpg : pg.all Char.isDigit = true) (hpne : pg ≠ [])
    (hsfx : sfx = "_square1200.jpg".data ∨ sfx = "_custom1200.jpg".data) :
    generate_image_url
      (thumbHost ++ (seg ++ ("/img/".data ++ (mid ++ ("_p".data ++ (pg ++ sfx)))))) k =
      canonUrl mid (natChars k) := by
  have hadj : hasAdj '/' 'c'
      (thumbHost ++ ("/img-master".data ++
        ("/img/".data ++ (mid ++ ("_p".data ++ (pg ++ sfx)))))) = false := by
    rw [host_base]
    exact hasAdj_slash_c_canonical hmid hmne hpg (or3_of_or2 hsfx)
  have hxt : 'x' ∉ "/img/".data ++ (mid ++ ("_p".data ++ (pg ++ sfx))) :=
    tail_not_mem hmid hpg hsfx (by decide) (by decide) (by decide) (by decide)
      (by decide) (by decide)
  have hbt : 'b' ∉ "/img/".data ++ (mid ++ ("_p".data ++ (pg ++ sfx))) :=
    tail_not_mem hmid hpg hsfx (by decide) (by decide) (by decide) (by decide)
      (by decide) (by decide)
  show subP k (subSuffixNew ms1200 (scanLit '/' cMasterTail "/img-master".data
    (scanLit '/' ctThumbTail "/img-master".data
      (thumbHost ++ (seg ++ ("/img/".data ++ (mid ++ ("_p".data ++ (pg ++ sfx))))))))) =
    canonUrl mid (natChars k)
  rw [scans12_thumb hseg hxt hbt hadj, host_base]
  exact suffix_subP_canon k hmid hpg hpne (or3_of_or2 hsfx)

theorem generate_image_url_canon {mid pgl : List Char} (k : Nat)
    (hmid : MidOk mid) (hmne : mid ≠ [])
    (hpgl : pgl.all Char.isDigit = true) (hpne : pgl ≠ []) :
    generate_image_url (canonUrl mid pgl) k = canonUrl mid (natChars k) := by
  have hadj : hasAdj '/' 'c' (canonUrl mid pgl) = false :=
    hasAdj_slash_c_canonical hmid hmne hpgl (Or.inr (Or.inr rfl))
  show subP k (subSuffixNew ms1200 (scanLit '/' cMasterTail "/img-master".data
    (scanLit '/' ctThumbTail "/img-master".data (canonUrl mid pgl)))) =
    canonUrl mid (natChars k)
  rw [ctThumbTail_eq, scanLit_eq_of_no_adj hadj, cMasterTail_eq, scanLit_eq_of_no_adj hadj]
  exact suffix_subP_canon k hmid hpgl hpne (Or.inr (Or.inr rfl))

theorem lexLe_total : ∀ a b : List Char, lexLe a b = true ∨ lexLe b a = true := by
  intro a
  induction a with
  | nil => intro b; exact Or.inl rfl
  | cons x ta ih =>
    intro b
    cases b with
    | nil => exact Or.inr rfl
    | cons y tb =>
      rcases lt_trichotomy x y with h | h | h
      · left
        simp [lexLe, h]
      · subst h
        rcases ih tb with h2 | h2
        · left
          simp [lexLe, h2]
        · right
          simp [lexLe, h2]
      · right
        simp [lexLe, h]

theorem lexLe_trans : ∀ {a b c : List Char},
    lexLe a b = true → lexLe b c = true → lexLe a c = true := by
  intro a
  induction a with
  | nil => intro b c _ _; rfl
  | cons x ta ih =>
    intro b c hab hbc
    cases b with
    | nil => simp [lexLe] at hab
    | cons y tb =>
      cases c with
      | nil => simp [lexLe] at hbc
      | cons z tc =>
        rw [lexLe] at hab hbc ⊢
        by_cases hxy : x < y
        · by_cases hyz : y < z
          · rw [if_pos (hxy.trans hyz)]
          · rw [if_neg hyz] at hbc
            by_cases hyz2 : y = z
            · subst hyz2
              rw [if_pos hxy]
            · rw [if_neg hyz2] at hbc
              exact absurd hbc (by simp)
        · rw [if_neg hxy] at hab
          by_cases hxy2 : x = y
          · subst hxy2
            rw [if_pos rfl] at hab
            by_cases hxz : x < z
            · rw [if_pos hxz]
            · rw [if_neg hxz] at hbc ⊢
              by_cases hxz2 : x = z
              · rw [if_pos hxz2] at hbc ⊢
                exact ih hab hbc
              · rw [if_neg hxz2] at hbc
                exact absurd hbc (by simp)
          · rw [if_neg hxy2] at hab
            exact absurd hab (by simp)

theorem mem_pyInsert {a x : List Char} :
    ∀ {s : List (List Char)}, a ∈ pyInsert x s ↔ a = x ∨ a ∈ s := by
  intro s
  induction s with
  | nil => simp [pyInsert]
  | cons y ys ih =>
    rw [pyInsert]
    by_cases h : lexLe x y = true
    · rw [if_pos h]
      simp only [List.mem_cons]
    · rw [if_neg h]
      simp only [List.mem_cons, ih]
      tauto

theorem sorted_pyInsert {x : List Char} :
    ∀ {s : List (List Char)}, List.Sorted LexLe s → List.Sorted LexLe (pyInsert x s) := by
  intro s
  induction s with
  | nil => intro _; simp [pyInsert]
  | cons y ys ih =>
    intro hs
    rw [List.sorted_cons] at hs
    obtain ⟨hy, hys⟩ := hs
    rw [pyInsert]
    by_cases h : lexLe x y = true
    · rw [if_pos h, List.sorted_cons]
      refine ⟨?_, by rw [List.sorted_cons]; exact ⟨hy, hys⟩⟩
      intro b hb
      rcases List.mem_cons.mp hb with h2 | h2
      · subst h2; exact h
      · exact lexLe_trans h (hy b h2)
    · rw [if_neg h, List.sorted_cons]
      refine ⟨?_, ih hys⟩
      intro b hb
      rcases mem_pyInsert.mp hb with h2 | h2
      · subst h2
        rcases lexLe_total b y with h3 | h3
        · exact absurd h3 h
        · exact h3
      · exact hy b h2

theorem pyInsert_perm (x : List Char) :
    ∀ s : List (List Char), List.Perm (pyInsert x s) (x :: s) := by
  intro s
  induction s with
  | nil => rfl
  | cons y ys ih =>
    rw [pyInsert]
    by_cases h : lexLe x y = true
    · rw [if_pos h]
    · rw [if_neg h]
      exact (List.Perm.cons y ih).trans (List.Perm.swap x y ys)

theorem pySorted_sorted (l : List (List Char)) : List.Sorted LexLe (pySorted l) := by
  induction l with
  | nil => simp [pySorted]
  | cons x t ih => exact sorted_pyInsert ih

theorem pySorted_perm (l : List (List Char)) : List.Perm (pySorted l) l := by
  induction l with
  | nil => rfl
  | cons x t ih => exact (pyInsert_perm x (pySorted t)).trans (List.Perm.cons x ih)

theorem splitlinesAux_line {u : List Char} (hu : ∀ c ∈ u, lineBreakChar c = false) :
    u ≠ [] → ∀ cur lcr, splitlinesAux (u ++ ['\n']) cur lcr = [cur.reverse ++ u] := by
  induction u with
  | nil => intro h; exact absurd rfl h
  | cons c u' ih =>
    intro _ cur lcr
    have hc : lineBreakChar c = false := hu c (List.mem_cons_self c u')
    have hcn : c ≠ '\n' := by
      intro h
      rw [h] at hc
      simp [lineBreakChar] at hc
    rw [List.cons_append, splitlinesAux]
    rw [if_neg (by simp [hcn]), if_neg (by simp [hc])]
    by_cases hu' : u' = []
    · subst hu'
      rw [List.nil_append, splitlinesAux]
      rw [if_neg (by simp), if_pos (by simp [lineBreakChar])]
      simp [splitlinesAux]
    · rw [ih (fun d hd => hu d (List.mem_cons_of_mem c hd)) hu']
      simp

theorem splitlinesAux_append_line {u : List Char}
    (hu : ∀ c ∈ u, lineBreakChar c = false) (hune : u ≠ []) :
    ∀ (f cur : List Char) (lcr : Bool), (f = [] → cur = []) → (lcr = true → cur = []) →
    (f = [] ∨ ∃ c, f.getLast? = some c ∧ lineBreakChar c = true) →
    splitlinesAux (f ++ (u ++ ['\n'])) cur lcr = splitlinesAux f cur lcr ++ [u] := by
  intro f
  induction f with
  | nil =>
    intro cur lcr hcur _ _
    rw [hcur rfl, List.nil_append, splitlinesAux_line hu hune]
    simp [splitlinesAux]
  | cons c f' ih =>
    intro cur lcr hcur hlcr hend
    have hend' : f' = [] ∨ ∃ d, f'.getLast? = some d ∧ lineBreakChar d = true := by
      by_cases hf' : f' = []
      · exact Or.inl hf'
      · rcases hend with h | ⟨d, hd1, hd2⟩
        · simp at h
        · refine Or.inr ⟨d, ?_, hd2⟩
          rw [← hd1]
          have hcf : (c :: f') = [c] ++ f' := rfl
          rw [hcf, getLast?_append_of_ne_nil [c] hf']
    rw [List.cons_append, splitlinesAux, splitlinesAux]
    by_cases h1 : (lcr && (c = '\n' : Bool)) = true
    · rw [if_pos h1, if_pos h1]
      have hcur0 : cur = [] := hlcr (by
        rcases Bool.and_eq_true _ _ |>.mp h1 with ⟨ha, _⟩
        exact ha)
      by_cases hf' : f' = []
      · subst hf' hcur0
        rw [List.nil_append, splitlinesAux_line hu hune]
        simp [splitlinesAux]
      · exact ih cur false (fun h => absurd h hf') (fun h => by simp at h) hend'
    · rw [if_neg h1, if_neg h1]
      by_cases h2 : lineBreakChar c = true
      · rw [if_pos h2, if_pos h2]
        by_cases hf' : f' = []
        · subst hf'
          rw [List.nil_append, splitlinesAux_line hu hune]
          simp [splitlinesAux]
        · rw [ih [] (c = '\r') (fun h => absurd h hf') (fun _ => rfl) hend']
          simp
      · rw [if_neg h2, if_neg h2]
        have hf' : f' ≠ [] := by
          intro h
          subst h
          rcases hend with h | ⟨d, hd1, hd2⟩
          · simp at h
          · have hcd : c = d := by simpa using hd1
            rw [hcd] at h2
            exact h2 hd2
        exact ih (c :: cur) false (fun h => absurd h hf') (by simp) hend'

theorem occursB_ne_nil {pat s : List Char} (hp : pat ≠ []) (h : occursB pat s = true) :
    s ≠ [] := by
  intro hs
  subst hs
  rw [occursB, List.isEmpty_iff] at h
  exact hp h

theorem process_urls_go_spec (ok : List Char → Bool) (already : List (List Char)) :
    ∀ (urls : List (List Char)) (f : List Char),
    (∀ u ∈ urls, ∀ c ∈ u, lineBreakChar c = false) →
    (f = [] ∨ ∃ c, f.getLast? = some c ∧ lineBreakChar c = true) →
    (∀ v ∈ already, v ∉ (process_urls_go ok already urls f).1) ∧
    splitlines (process_urls_go ok already urls f).2.2 =
      splitlines f ++ (process_urls_go ok already urls f).2.1 ∧
    f <+: (process_urls_go ok already urls f).2.2 := by
  intro urls
  induction urls with
  | nil =>
    intro f _ _
    refine ⟨fun v _ => by simp [process_urls_go], by simp [process_urls_go],
      List.prefix_refl f⟩
  | cons u rest ih =>
    intro f hurls hinv
    have hrest : ∀ v ∈ rest, ∀ c ∈ v, lineBreakChar c = false :=
      fun v hv => hurls v (List.mem_cons_of_mem u hv)
    by_cases hhost : occursB HOST_BASE_LINK u = true
    · by_cases hmem : u ∈ already
      · have hstep : process_urls_go ok already (u :: rest) f =
            process_urls_go ok already rest f := by
          rw [process_urls_go, if_pos hhost, if_pos hmem]
        rw [hstep]
        exact ih f hrest hinv
      · by_cases hok : ok u = true
        · have hstep : process_urls_go ok already (u :: rest) f =
              ((u :: (process_urls_go ok already rest (write_file_append f u)).1,
                u :: (process_urls_go ok already rest (write_file_append f u)).2.1,
                (process_urls_go ok already rest (write_file_append f u)).2.2)) := by
            rw [process_urls_go, if_pos hhost, if_neg hmem, if_pos hok]
          rw [hstep]
          have hune : u ≠ [] := occursB_ne_nil (by decide) hhost
          have hinv' : write_file_append f u = [] ∨
              ∃ c, (write_file_append f u).getLast? = some c ∧ lineBreakChar c = true := by
            refine Or.inr ⟨'\n', ?_, by decide⟩
            rw [write_file_append, getLast?_append_of_ne_nil f (by simp),
              getLast?_append_of_ne_nil u (by simp)]
            rfl
          obtain ⟨ha, hsplit, hpre⟩ := ih (write_file_append f u) hrest hinv'
          refine ⟨?_, ?_, ?_⟩
          · intro v hv
            simp only [List.mem_cons, not_or]
            exact ⟨fun he => hmem (he ▸ hv), ha v hv⟩
          · rw [hsplit]
            have hline : splitlines (write_file_append f u) = splitlines f ++ [u] := by
              rw [write_file_append, splitlines, splitlines,
                splitlinesAux_append_line (hurls u (List.mem_cons_self u rest)) hune f []
                  false (fun _ => rfl) (fun _ => rfl) hinv]
            rw [hline, List.append_assoc]
            rfl
          · exact List.IsPrefix.trans ⟨u ++ ['\n'], rfl⟩ hpre
        · have hstep : process_urls_go ok already (u :: rest) f = ([u], [], f) := by
            rw [process_urls_go, if_pos hhost, if_neg hmem, if_neg hok]
          rw [hstep]
          refine ⟨?_, by simp, List.prefix_refl f⟩
          intro v hv
          simp only [List.mem_cons, List.not_mem_nil, or_false]
          exact fun he => hmem (he ▸ hv)
    · have hstep : process_urls_go ok already (u :: rest) f =
          process_urls_go ok already rest f := by
        rw [process_urls_go, if_neg hhost]
      rw [hstep]
      exact ih f hrest hinv

theorem headDigit_subP {k : Nat} {s : List Char} (hs : headDigit s = false) :
    headDigit (subP k s) = false := by
  cases s with
  | nil => rfl
  | cons c t =>
    by_cases hg : (c = 'p' && headDigit t) = true
    · have hc : c = 'p' := by
        rcases Bool.and_eq_true _ _ |>.mp hg with ⟨hc, _⟩
        simpa using hc
      subst hc
      rw [subP_cons_match (Bool.and_eq_true _ _ |>.mp hg).2]
      rfl
    · rw [subP_cons_not (Bool.eq_false_iff.mpr hg)]
      exact hs

theorem headDigit_dropWhile (l : List Char) :
    headDigit (l.dropWhile Char.isDigit) = false := by
  induction l with
  | nil => rfl
  | cons c t ih =>
    rw [List.dropWhile_cons]
    by_cases hc : c.isDigit = true
    · rw [if_pos hc]
      exact ih
    · rw [if_neg hc]
      simpa [headDigit] using hc

theorem takeWhile_nil_of_headDigit_false {x : List Char} (h : headDigit x = false) :
    x.takeWhile Char.isDigit = [] := by
  cases x with
  | nil => rfl
  | cons c t =>
    rw [List.takeWhile_cons, if_neg]
    rw [show headDigit (c :: t) = c.isDigit from rfl] at h
    simp [h]

theorem dropWhile_self_of_headDigit_false {x : List Char} (h : headDigit x = false) :
    x.dropWhile Char.isDigit = x := by
  cases x with
  | nil => rfl
  | cons c t =>
    rw [List.dropWhile_cons, if_neg]
    rw [show headDigit (c :: t) = c.isDigit from rfl] at h
    simp [h]

theorem headDigit_append_natChars (k : Nat) (X : List Char) :
    headDigit (natChars k ++ X) = true := by
  cases h : natChars k with
  | nil => exact absurd h (natChars_ne_nil k)
  | cons c t =>
    have hc : c.isDigit = true := by
      have := natChars_all_digit k
      rw [h, List.all_cons, Bool.and_eq_true] at this
      exact this.1
    rw [List.cons_append]
    exact hc

theorem pRuns_nil : pRuns [] = [] := by
  rw [pRuns]

theorem pRuns_cons_match {rest : List Char} (h : headDigit rest = true) :
    pRuns ('p' :: rest) =
      (rest.takeWhile Char.isDigit) :: pRuns (rest.dropWhile Char.isDigit) := by
  rw [pRuns, if_pos (by simp [h])]

theorem pRuns_cons_not {c : Char} {rest : List Char}
    (h : (c = 'p' && headDigit rest) = false) : pRuns (c :: rest) = pRuns rest := by
  rw [pRuns, if_neg (by simp [h])]

theorem pRuns_subP_bounded (k : Nat) :
    ∀ (n : Nat) (s : List Char), s.length ≤ n →
    pRuns (subP k s) = (pRuns s).map (fun _ => natChars k) := by
  intro n
  induction n with
  | zero =>
    intro s hs
    have h0 : s = [] := List.eq_nil_of_length_eq_zero (Nat.le_zero.mp hs)
    subst h0
    simp [subP, subPAux, pRuns_nil]
  | succ n ihn =>
    intro s hs
    cases s with
    | nil => simp [subP, subPAux, pRuns_nil]
    | cons c t =>
      by_cases hg : (c = 'p' && headDigit t) = true
      · obtain ⟨hc, ht⟩ := Bool.and_eq_true _ _ |>.mp hg
        have hc' : c = 'p' := by simpa using hc
        subst hc'
        rw [subP_cons_match ht, pRuns_cons_match ht]
        have hhd : headDigit (subP k (t.dropWhile Char.isDigit)) = false :=
          headDigit_subP (headDigit_dropWhile t)
        rw [pRuns_cons_match (headDigit_append_natChars k _)]
        have htake : (natChars k ++ subP k (t.dropWhile Char.isDigit)).takeWhile
            Char.isDigit = natChars k := by
          rw [takeWhile_append_all (fun c hc => natChars_mem_isDigit hc),
            takeWhile_nil_of_headDigit_false hhd, List.append_nil]
        have hdrop : (natChars k ++ subP k (t.dropWhile Char.isDigit)).dropWhile
            Char.isDigit = subP k (t.dropWhile Char.isDigit) := by
          rw [dropWhile_all_append (natChars_all_digit k)]
          intro x hx
          cases hX : subP k (t.dropWhile Char.isDigit) with
          | nil => rw [hX] at hx; simp at hx
          | cons y ys =>
            rw [hX] at hx
            injection hx with hx
            subst hx
            rw [hX] at hhd
            exact hhd
        rw [htake, hdrop, List.map_cons]
        congr 1
        apply ihn
        have h1 := (List.dropWhile_sublist Char.isDigit (l := t)).length_le
        simp only [List.length_cons] at hs
        omega
      · have hgf : (c = 'p' && headDigit t) = false := Bool.eq_false_iff.mpr hg
        rw [subP_cons_not hgf, pRuns_cons_not hgf]
        have hg2 : (c = 'p' && headDigit (subP k t)) = false := by
          by_cases hc : c = 'p'
          · subst hc
            simp only [decide_eq_true_eq] at hgf ⊢
            simp only [Bool.and_eq_false_iff] at hgf ⊢
            rcases hgf with h | h
            · simp at h
            · exact Or.inr (headDigit_subP h)
          · simp [hc]
        rw [pRuns_cons_not hg2]
        apply ihn
        simp only [List.length_cons] at hs
        omega

theorem pRuns_subP (k : Nat) (s : List Char) :
    pRuns (subP k s) = (pRuns s).map (fun _ => natChars k) :=
  pRuns_subP_bounded k s.length s (Nat.le_refl _)

theorem construct_image_url_thumb {seg mid pg sfx : List Char} (k : Nat)
    (hseg : seg = "/c/250x250_80_a2/custom-thumb".data ∨
      seg = "/c/250x250_80_a2/img-master".data)
    (hmid : MidOk mid) (hmne : mid ≠ [])
    (hpg : pg.all Char.isDigit = true) (hpne : pg ≠ [])
    (hsfx : sfx = "_square1200.jpg".data ∨ sfx = "_custom1200.jpg".data) :
    construct_image_url
      (thumbHost ++ (seg ++ ("/img/".data ++ (mid ++ ("_p".data ++ (pg ++ sfx)))))) k =
      canonUrl mid (natChars k) := by
  have hadj : hasAdj '/' 'c'
      (thumbHost ++ ("/img-master".data ++
        ("/img/".data ++ (mid ++ ("_p".data ++ (pg ++ sfx)))))) = false := by
    rw [host_base]
    exact hasAdj_slash_c_canonical hmid hmne hpg (or3_of_or2 hsfx)
  have hxt : 'x' ∉ "/img/".data ++ (mid ++ ("_p".data ++ (pg ++ sfx))) :=
    tail_not_mem hmid hpg hsfx (by decide) (by decide) (by decide) (by decide)
      (by decide) (by decide)
  have hbt : 'b' ∉ "/img/".data ++ (mid ++ ("_p".data ++ (pg ++ sfx))) :=
    tail_not_mem hmid hpg hsfx (by decide) (by decide) (by decide) (by decide)
      (by decide) (by decide)
  show subP k (subEndOld "_custom1200".data ms1200 (subEndOld "_square1200".data ms1200
    (scanLit '/' cMasterTail "/img-master".data (scanLit '/' ctThumbTail "/img-master".data
      (thumbHost ++ (seg ++ ("/img/".data ++ (mid ++ ("_p".data ++ (pg ++ sfx)))))))))) =
    canonUrl mid (natChars k)
  rw [scans12_thumb hseg hxt hbt hadj, host_base]
  have hassoc : imgBase ++ (mid ++ ("_p".data ++ (pg ++ sfx))) =
      (imgBase ++ mid ++ "_p".data ++ pg) ++ sfx := by
    simp [List.append_assoc]
  rw [hassoc]
  rcases hsfx with h | h <;> subst h
  · rw [subEndOld_end15 (by decide) ⟨'g', by decide, by decide⟩, if_pos (by decide)]
    rw [subEndOld_end15 (by decide) ⟨'g', by decide, by decide⟩, if_neg (by decide)]
    exact subP_canon_tail k hmid hpg hpne
  · rw [subEndOld_end15 (by decide) ⟨'g', by decide, by decide⟩, if_neg (by decide)]
    rw [subEndOld_end15 (by decide) ⟨'g', by decide, by decide⟩, if_pos (by decide)]
    exact subP_canon_tail k hmid hpg hpne

theorem splitextExt_canon {mid pgl : List Char}
    (hpgl : pgl.all Char.isDigit = true) :
    splitextExt (canonUrl mid pgl) = ".jpg".data := by
  have hrev : (canonUrl mid pgl).reverse =
      ms1200.reverse ++ (pgl.reverse ++ (['p', '_'] ++ (mid.reverse ++ imgBase.reverse))) := by
    simp [canonUrl, List.reverse_append, List.append_assoc]
  have htw : (canonUrl mid pgl).reverse.takeWhile neSlash =
      ms1200.reverse ++ (pgl.reverse ++ (['p', '_'] ++ mid.reverse.takeWhile neSlash)) := by
    rw [hrev]
    rw [takeWhile_append_all (by decide)]
    rw [takeWhile_append_all ?pgrev]
    case pgrev =>
      intro c hc
      rw [List.mem_reverse] at hc
      have hcd : c.isDigit = true := by
        rw [List.all_eq_true] at hpgl
        exact hpgl c hc
      have hcs : c ≠ '/' := digit_ne hcd (by decide : ('/' : Char).isDigit = false)
      rw [neSlash]
      simp [hcs]
    rw [takeWhile_append_all (by decide)]
    rw [takeWhile_append_stop (by decide : (imgBase.reverse : List Char).head? = some '/')
      (by decide)]
  apply splitextExt_of_decomp
    (x := (mid.reverse.takeWhile neSlash).reverse ++
      ("_p".data ++ (pgl ++ "_master1200".data)))
  · rw [htw]
    simp [List.reverse_append, List.append_assoc]
    rfl
  · intro c hc
    fin_cases hc <;> decide
  · refine ⟨'p', ?_, by decide⟩
    simp

theorem process_artwork_images_go_ok {statusOf : Nat → Nat} {a : Artwork} {dir : List Char} :
    ∀ ks : List Nat, (∀ k ∈ ks, statusOf k = 200 ∨ statusOf k = 403) →
    process_artwork_images_go statusOf a dir ks =
      (ks.map (fun k =>
        { index := k, url := construct_image_url a.url k,
          filename := save_image_filename a k (construct_image_url a.url k),
          path := joinP dir (save_image_filename a k (construct_image_url a.url k)) }),
        none) := by
  intro ks
  induction ks with
  | nil => intro _; rfl
  | cons k ks' ih =>
    intro hok
    rw [process_artwork_images_go]
    rw [if_pos (hok k (List.mem_cons_self k ks'))]
    rw [ih (fun j hj => hok j (List.mem_cons_of_mem k hj))]
    rfl

theorem runningIn_card_le (n w : Nat) :
    (runningIn MAX_WORKERS n w).card ≤ MAX_WORKERS := by
  have hsub : runningIn MAX_WORKERS n w ⊆
      Finset.Ico (w * MAX_WORKERS) (w * MAX_WORKERS + MAX_WORKERS) := by
    intro i hi
    simp only [runningIn, poolWave, MAX_WORKERS, Finset.mem_filter, Finset.mem_range] at hi
    simp only [MAX_WORKERS, Finset.mem_Ico]
    omega
  calc (runningIn MAX_WORKERS n w).card
      ≤ (Finset.Ico (w * MAX_WORKERS) (w * MAX_WORKERS + MAX_WORKERS)).card :=
        Finset.card_le_card hsub
    _ = MAX_WORKERS := by rw [Nat.card_Ico]; omega

/-- Claim C1, counterexample: the artwork type dispatch of
`handle_artwork_type` has no error branch — at the concrete unknown type
tag 3 the artwork is silently skipped, and no `UnsupportedTypeError` (or
any error) is raised, contradicting the claim that unknown tags raise. -/
theorem claim_C1_counterexample :
    (3 : Int) ≠ 0 ∧ (3 : Int) ≠ 1 ∧ (3 : Int) ≠ 2 ∧
    handle_artwork_type
      { id := "77".data, url := "u".data, pageCount := some 1, illustType := some 3 } =
      HandleResult.skipped :=
  ⟨by decide, by decide, by decide, by decide⟩

/-- Claim C1, amended: for every artwork whose metadata carries a type
tag outside the known tag space (`illustType` not in {0, 1, 2}),
`handle_artwork_type` silently skips the artwork: it takes neither
processing path and raises no error. -/
theorem claim_C1_amended (a : Artwork) (t : Int) (h : a.illustType = some t)
    (h0 : t ≠ 0) (h1 : t ≠ 1) (h2 : t ≠ 2) :
    handle_artwork_type a = HandleResult.skipped := by
  rw [handle_artwork_type, h]
  show (if t = 0 ∨ t = 1 then HandleResult.processImages
    else if t = 2 then HandleResult.processGifs else HandleResult.skipped) =
    HandleResult.skipped
  rw [if_neg (not_or.mpr ⟨h0, h1⟩), if_neg h2]

/-- Witness for the amended claim C1 at the concrete type tag 5. -/
theorem claim_C1_amended_witness :
    handle_artwork_type
      { id := "9".data, url := "v".data, pageCount := some 1, illustType := some 5 } =
      HandleResult.skipped :=
  claim_C1_amended _ 5 rfl (by decide) (by decide) (by decide)

/-- Claim C9: the page-index substitution of the image-URL rewrite is
global: in its output (hence in the output of `generate_image_url`)
every maximal substring matching `p` followed by digits carries exactly
the digits of the requested page index `k`, and the number of such
substrings is preserved — so a URL containing any other `p<digits>`
segment has that segment rewritten as well. -/
theorem claim_C9 (u : List Char) (k : Nat) :
    pRuns (subP k u) = (pRuns u).map (fun _ => natChars k) ∧
    pRuns (generate_image_url u k) =
      (pRuns (subSuffixNew ms1200 (scanLit '/' cMasterTail "/img-master".data
        (scanLit '/' ctThumbTail "/img-master".data u)))).map (fun _ => natChars k) :=
  ⟨pRuns_subP k u, pRuns_subP k _⟩

/-- Claim C7: for every thumbnail-style artwork URL and every page
index, the image-URL rewrite is idempotent: applying
`generate_image_url` twice yields the same URL as applying it once. -/
theorem claim_C7 (u : List Char) (k : Nat) (h : ThumbStyle u) :
    generate_image_url (generate_image_url u k) k = generate_image_url u k := by
  obtain ⟨seg, mid, pg, sfx, hseg, hmid, hmne, hpg, hpne, hsfx, hu⟩ := h
  subst hu
  rw [generate_image_url_thumb k hseg hmid hmne hpg hpne hsfx]
  exact generate_image_url_canon k hmid hmne (natChars_all_digit k) (natChars_ne_nil k)

/-- Witness for claim C7 at a concrete thumbnail URL and page index 7. -/
theorem claim_C7_witness :
    generate_image_url (generate_image_url
      "https://i.pximg.net/c/250x250_80_a2/custom-thumb/img/2024/05/01/00/00/00/118437255_p0_custom1200.jpg".data 7) 7 =
    generate_image_url
      "https://i.pximg.net/c/250x250_80_a2/custom-thumb/img/2024/05/01/00/00/00/118437255_p0_custom1200.jpg".data 7 :=
  claim_C7 _ 7 ⟨"/c/250x250_80_a2/custom-thumb".data,
    "2024/05/01/00/00/00/118437255".data, "0".data, "_custom1200.jpg".data,
    Or.inl rfl, by decide, by decide, by decide, by decide, Or.inr rfl, rfl⟩

/-- Claim C10 (spec-modelled scheduler): the worker cap is the fixed
constant 10 (`MAX_WORKERS`), independent of the page count; in every
wave at most `MAX_WORKERS` of the `n` page tasks run concurrently; the
first `MAX_WORKERS` tasks start at once (wave 0), and each task beyond
the cap waits for a later wave. -/
theorem claim_C10 (n : Nat) :
    MAX_WORKERS = 10 ∧
    (∀ w, (runningIn MAX_WORKERS n w).card ≤ MAX_WORKERS) ∧
    (∀ i, i < n → MAX_WORKERS ≤ i → 0 < poolWave MAX_WORKERS i) ∧
    (∀ i, i < n → i < MAX_WORKERS → poolWave MAX_WORKERS i = 0) := by
  refine ⟨rfl, fun w => runningIn_card_le n w, ?_, ?_⟩
  · intro i _ h
    simp only [poolWave, MAX_WORKERS] at h ⊢
    omega
  · intro i _ h
    simp only [poolWave, MAX_WORKERS] at h ⊢
    omega

/-- Witness for claim C10 with 25 tasks: wave 0 holds at most ten tasks
and task 12 is queued past the first wave. -/
theorem claim_C10_witness :
    (runningIn MAX_WORKERS 25 0).card ≤ MAX_WORKERS ∧ 0 < poolWave MAX_WORKERS 12 :=
  ⟨(claim_C10 25).2.1 0, (claim_C10 25).2.2.1 12 (by decide) (by decide)⟩

/-- Claim C4: for every asset download (static page or frame archive) an
HTTP status of 200 or 403 is accepted and the body processed (the page
saver finishes without error; the archive saver writes the archive),
while any other status is fatal: the transfer error is raised and no
file is written — the trace holds only the GET, in particular nothing
under the final output name. -/
theorem claim_C4 (status : Nat) (a : Artwork) (image : Nat) (path : List Char)
    (listing : List (List Char)) :
    (status = 200 ∨ status = 403 →
      (save_image_from_response status a image path).2 = none ∧
      (save_gif_from_response status a path listing).2 ≠ some (RunErr.transfer status) ∧
      Ev.writeFile (joinP path (a.id ++ ".zip".data)) ∈
        (save_gif_from_response status a path listing).1) ∧
    (¬(status = 200 ∨ status = 403) →
      save_image_from_response status a image path =
        ([Ev.httpGet (generate_image_url a.url image)], some (RunErr.transfer status)) ∧
      save_gif_from_response status a path listing =
        ([Ev.httpGet (generate_gif_url a.url)], some (RunErr.transfer status))) := by
  constructor
  · intro h
    refine ⟨by simp [save_image_from_response, if_pos h], ?_, ?_⟩ <;>
      rcases hsort : pySorted (listing.filter hasImgExt) with _ | ⟨f, rest⟩ <;>
        simp [save_gif_from_response, if_pos h, hsort, download_with_progress]
  · intro h
    exact ⟨by rw [save_image_from_response, if_neg h],
      by rw [save_gif_from_response, if_neg h]⟩

/-- Witness for claim C4: a 404 page response aborts both helpers with
the transfer error and no write; a 200 page response is accepted. -/
theorem claim_C4_witness :
    (save_image_from_response 404
      { id := "1".data, url := "u".data, pageCount := some 1, illustType := some 0 }
      0 "d".data =
      ([Ev.httpGet (generate_image_url "u".data 0)], some (RunErr.transfer 404))) ∧
    (save_image_from_response 200
      { id := "1".data, url := "u".data, pageCount := some 1, illustType := some 0 }
      0 "d".data).2 = none :=
  ⟨((claim_C4 404 _ 0 "d".data []).2 (by decide)).1,
    ((claim_C4 200 _ 0 "d".data []).1 (Or.inl rfl)).1⟩

/-- Claim C5: on an accepted archive response whose extraction yields at
least one frame with an image extension, the frame files are enumerated
in ascending lexicographic filename order (a sorted permutation of the
eligible listing), the animation is saved as `<artwork-id>.gif` using
the first frame as base and appending the remaining frames in that
order, and on success both `<artwork-id>.zip` and the temporary
`<artwork-id>_extracted` directory are deleted afterwards. -/
theorem claim_C5 (status : Nat) (a : Artwork) (path : List Char)
    (listing : List (List Char)) (hst : status = 200 ∨ status = 403)
    (hne : listing.filter hasImgExt ≠ []) :
    ∃ f rest, pySorted (listing.filter hasImgExt) = f :: rest ∧
      List.Sorted LexLe (f :: rest) ∧
      List.Perm (f :: rest) (listing.filter hasImgExt) ∧
      save_gif_from_response status a path listing =
        ([Ev.httpGet (generate_gif_url a.url),
          Ev.writeFile (joinP path (a.id ++ ".zip".data)),
          Ev.advanceOverall,
          Ev.mkdirP (joinP path (a.id ++ "_extracted".data)),
          Ev.extractZip (joinP path (a.id ++ ".zip".data))
            (joinP path (a.id ++ "_extracted".data)),
          Ev.saveGif (joinP path (a.id ++ ".gif".data)) f rest,
          Ev.deleteFile (joinP path (a.id ++ ".zip".data)),
          Ev.deleteDir (joinP path (a.id ++ "_extracted".data))], none) := by
  rcases hsort : pySorted (listing.filter hasImgExt) with _ | ⟨f, rest⟩
  · exfalso
    have hp := pySorted_perm (listing.filter hasImgExt)
    rw [hsort] at hp
    exact hne hp.symm.eq_nil
  · refine ⟨f, rest, rfl, ?_, ?_, ?_⟩
    · have hsorted := pySorted_sorted (listing.filter hasImgExt)
      rw [hsort] at hsorted
      exact hsorted
    · have hp := pySorted_perm (listing.filter hasImgExt)
      rw [hsort] at hp
      exact hp
    · simp [save_gif_from_response, if_pos hst, hsort, download_with_progress]

/-- Witness for claim C5: a four-frame archive listing (with a stray
non-image entry) is assembled in ascending numeric order. -/
theorem claim_C5_witness :
    ∃ f rest, pySorted ((["frame_002.jpg".data, "frame_000.jpg".data, "notes.txt".data,
        "frame_003.jpg".data, "frame_001.jpg".data]).filter hasImgExt) = f :: rest ∧
      List.Sorted LexLe (f :: rest) ∧
      List.Perm (f :: rest) ((["frame_002.jpg".data, "frame_000.jpg".data,
        "notes.txt".data, "frame_003.jpg".data, "frame_001.jpg".data]).filter hasImgExt) ∧
      save_gif_from_response 200
        { id := "654321".data, url := "u".data, pageCount := some 1, illustType := some 2 }
        "Downloads".data
        ["frame_002.jpg".data, "frame_000.jpg".data, "notes.txt".data,
          "frame_003.jpg".data, "frame_001.jpg".data] =
        ([Ev.httpGet (generate_gif_url "u".data),
          Ev.writeFile "Downloads/654321.zip".data,
          Ev.advanceOverall,
          Ev.mkdirP "Downloads/654321_extracted".data,
          Ev.extractZip "Downloads/654321.zip".data "Downloads/654321_extracted".data,
          Ev.saveGif "Downloads/654321.gif".data f rest,
          Ev.deleteFile "Downloads/654321.zip".data,
          Ev.deleteDir "Downloads/654321_extracted".data], none) := by
  obtain ⟨f, rest, h1, h2, h3, h4⟩ := claim_C5 200
    { id := "654321".data, url := "u".data, pageCount := some 1, illustType := some 2 }
    "Downloads".data
    ["frame_002.jpg".data, "frame_000.jpg".data, "notes.txt".data,
      "frame_003.jpg".data, "frame_001.jpg".data] (Or.inl rfl) (by decide)
  exact ⟨f, rest, h1, h2, h3, by rw [h4]; rfl⟩

/-- Claim C6, counterexample: at a concrete frame-sequence run the
overall progress counter is advanced at position 2 of the event trace,
directly after the archive write and before the extraction at position
4 — that is, before the hand-off to the frame assembler, contradicting
the claim that it is advanced only after assembly completes. -/
theorem claim_C6_counterexample :
    (save_gif_from_response 200
      { id := "654321".data, url := "u".data, pageCount := some 1, illustType := some 2 }
      "Downloads".data ["frame_000.jpg".data]).1.take 5 =
      [Ev.httpGet (generate_gif_url "u".data),
       Ev.writeFile "Downloads/654321.zip".data,
       Ev.advanceOverall,
       Ev.mkdirP "Downloads/654321_extracted".data,
       Ev.extractZip "Downloads/654321.zip".data "Downloads/654321_extracted".data] := by
  decide

/-- Claim C6, amended: on the frame-sequence path the overall counter is
advanced exactly once, at the end of the archive stream — after the
archive is written but before extraction, assembly and cleanup. -/
theorem claim_C6_amended (status : Nat) (a : Artwork) (path : List Char)
    (listing : List (List Char)) (hst : status = 200 ∨ status = 403) :
    (save_gif_from_response status a path listing).1.take 5 =
      [Ev.httpGet (generate_gif_url a.url),
       Ev.writeFile (joinP path (a.id ++ ".zip".data)),
       Ev.advanceOverall,
       Ev.mkdirP (joinP path (a.id ++ "_extracted".data)),
       Ev.extractZip (joinP path (a.id ++ ".zip".data))
         (joinP path (a.id ++ "_extracted".data))] ∧
    (save_gif_from_response status a path listing).1.count Ev.advanceOverall = 1 := by
  rcases hsort : pySorted (listing.filter hasImgExt) with _ | ⟨f, rest⟩ <;>
    simp [save_gif_from_response, if_pos hst, hsort, download_with_progress,
      List.count_cons, List.count_append]

/-- Witness for the amended claim C6 at a concrete accepted response. -/
theorem claim_C6_amended_witness :
    (save_gif_from_response 200
      { id := "7".data, url := "u".data, pageCount := some 1, illustType := some 2 }
      "d".data []).1.take 5 =
      [Ev.httpGet (generate_gif_url "u".data),
       Ev.writeFile "d/7.zip".data,
       Ev.advanceOverall,
       Ev.mkdirP "d/7_extracted".data,
       Ev.extractZip "d/7.zip".data "d/7_extracted".data] ∧
    (save_gif_from_response 200
      { id := "7".data, url := "u".data, pageCount := some 1, illustType := some 2 }
      "d".data []).1.count Ev.advanceOverall = 1 :=
  claim_C6_amended 200 _ "d".data [] (Or.inl rfl)

/-- Claim C2, counterexample: at status 204 (not 200, not an HTTP error
class) `fetch_artwork_data` succeeds rather than failing, and at status
200 with the requested ID absent from the decoded payload
`ArtworkDownloader.download` returns without error and silently
processes nothing, contradicting both the claimed not-200-fails rule
and the claimed `NotFoundError` for an absent ID. -/
theorem claim_C2_counterexample :
    (204 : Nat) ≠ 200 ∧
    fetch_artwork_data "https://www.pixiv.net/en/artworks/123".data
      { status := 204, meta := some (some { illust := some [] }) } =
      Except.ok ("123".data, { illust := some [] }) ∧
    ArtworkDownloader.download "https://www.pixiv.net/en/artworks/123".data
      { status := 200,
        meta := some (some (PreloadData.mk (some [("artist".data,
          IllustEntry.mk (some [("999".data,
            Artwork.mk "999".data "u".data (some 1) (some 0))]))]))) } =
      Except.ok [] :=
  ⟨by decide, rfl, rfl⟩

/-- Claim C2, amended: the page fetch raises the HTTP-status error
exactly for codes in `[400, 600)` (other non-200 codes proceed); with an
acceptable status it fails when the `meta-preload-data` element is
absent, then when its content is not valid JSON, then when the URL holds
no `artworks/<digits>` ID, and otherwise returns the ID and payload; a
fetched ID that is absent from the payload's `userIllusts` records (or a
payload with no `illust` key) makes `download` return successfully with
nothing processed. -/
theorem claim_C2_amended (url : List Char) (resp : PageResponse) :
    (400 ≤ resp.status ∧ resp.status < 600 →
      fetch_artwork_data url resp = Except.error (FetchError.httpError resp.status)) ∧
    (¬(400 ≤ resp.status ∧ resp.status < 600) →
      (resp.meta = none →
        fetch_artwork_data url resp = Except.error FetchError.attrError) ∧
      (resp.meta = some none →
        fetch_artwork_data url resp = Except.error FetchError.jsonError) ∧
      (∀ d, resp.meta = some (some d) →
        (findArtId url = none →
          fetch_artwork_data url resp = Except.error FetchError.valueError) ∧
        (∀ aid, findArtId url = some aid →
          fetch_artwork_data url resp = Except.ok (aid, d)))) ∧
    (∀ aid d, fetch_artwork_data url resp = Except.ok (aid, d) →
      (d.illust = none → ArtworkDownloader.download url resp = Except.ok []) ∧
      (∀ es, d.illust = some es →
        (∀ e ∈ es, ∀ ui, e.2.userIllusts = some ui → alookup aid ui = none) →
        ArtworkDownloader.download url resp = Except.ok [])) := by
  refine ⟨?_, ?_, ?_⟩
  · intro h
    have hne : resp.status ≠ 200 := by omega
    rw [fetch_artwork_data, if_pos ⟨hne, h.1, h.2⟩]
  · intro h
    have hcond : ¬(resp.status ≠ 200 ∧ 400 ≤ resp.status ∧ resp.status < 600) := by
      intro hc
      exact h ⟨hc.2.1, hc.2.2⟩
    refine ⟨?_, ?_, ?_⟩
    · intro hm
      simp [fetch_artwork_data, hcond, hm]
    · intro hm
      simp [fetch_artwork_data, hcond, hm]
    · intro d hm
      constructor
      · intro hf
        simp [fetch_artwork_data, hcond, hm, hf]
      · intro aid hf
        simp [fetch_artwork_data, hcond, hm, hf]
  · intro aid d hok
    constructor
    · intro hil
      simp [ArtworkDownloader.download, hok, hil]
    · intro es hil hnone
      simp only [ArtworkDownloader.download, hok, hil]
      rw [Except.ok.injEq, List.filterMap_eq_nil_iff]
      intro e he
      cases hui : e.2.userIllusts with
      | none => simp
      | some ui => simp [hnone e he ui hui]

/-- Witness for the amended claim C2: a 500 response raises the HTTP
error, and a payload without the requested ID downloads nothing. -/
theorem claim_C2_amended_witness :
    fetch_artwork_data "https://www.pixiv.net/en/artworks/55".data
      { status := 500, meta := none } = Except.error (FetchError.httpError 500) ∧
    ArtworkDownloader.download "https://www.pixiv.net/en/artworks/55".data
      { status := 200, meta := some (some { illust := some [] }) } = Except.ok [] :=
  ⟨(claim_C2_amended "https://www.pixiv.net/en/artworks/55".data
      { status := 500, meta := none }).1 (by decide),
   ((claim_C2_amended "https://www.pixiv.net/en/artworks/55".data
      { status := 200, meta := some (some { illust := some [] }) }).2.2
      "55".data { illust := some [] } rfl).2 [] rfl
      (fun e he => absurd he (List.not_mem_nil e))⟩

/-- Claim C8: URLs already recorded in the ledger when processing starts
are never submitted for download; during the run the ledger file only
grows (the initial contents stay as a prefix), and its final line list
is exactly the initial lines followed by the successfully downloaded
URLs in order — nothing is removed, every success is appended. -/
theorem claim_C8 (ok : List Char → Bool) (urls : List (List Char)) (ledger : List Char)
    (hurls : ∀ u ∈ urls, ∀ c ∈ u, lineBreakChar c = false)
    (hledger : ledger = [] ∨ ∃ c, ledger.getLast? = some c ∧ lineBreakChar c = true) :
    (∀ v ∈ splitlines ledger, v ∉ (process_urls ok urls ledger).1) ∧
    splitlines (process_urls ok urls ledger).2.2 =
      splitlines ledger ++ (process_urls ok urls ledger).2.1 ∧
    ledger <+: (process_urls ok urls ledger).2.2 :=
  process_urls_go_spec ok (splitlines ledger) urls ledger hurls hledger

/-- Witness for claim C8: one URL already in the ledger and one new URL;
the old one is not re-submitted and the ledger grows by the new one. -/
theorem claim_C8_witness :
    (∀ v ∈ splitlines "https://www.pixiv.net/en/artworks/1\n".data,
      v ∉ (process_urls (fun _ => true)
        ["https://www.pixiv.net/en/artworks/1".data,
         "https://www.pixiv.net/en/artworks/2".data]
        "https://www.pixiv.net/en/artworks/1\n".data).1) ∧
    splitlines (process_urls (fun _ => true)
        ["https://www.pixiv.net/en/artworks/1".data,
         "https://www.pixiv.net/en/artworks/2".data]
        "https://www.pixiv.net/en/artworks/1\n".data).2.2 =
      splitlines "https://www.pixiv.net/en/artworks/1\n".data ++
        (process_urls (fun _ => true)
          ["https://www.pixiv.net/en/artworks/1".data,
           "https://www.pixiv.net/en/artworks/2".data]
          "https://www.pixiv.net/en/artworks/1\n".data).2.1 ∧
    "https://www.pixiv.net/en/artworks/1\n".data <+:
      (process_urls (fun _ => true)
        ["https://www.pixiv.net/en/artworks/1".data,
         "https://www.pixiv.net/en/artworks/2".data]
        "https://www.pixiv.net/en/artworks/1\n".data).2.2 :=
  claim_C8 (fun _ => true)
    ["https://www.pixiv.net/en/artworks/1".data,
     "https://www.pixiv.net/en/artworks/2".data]
    "https://www.pixiv.net/en/artworks/1\n".data
    (by decide) (Or.inr ⟨'\n', by decide, by decide⟩)

/-- Claim C3: for a static artwork with page count `n ≥ 1` whose base
URL is thumbnail-style and whose page responses are all accepted,
`process_artwork_images` performs exactly `n` page downloads, one per
index `0..n-1` in order, and each index `k` appears exactly once in the
output filenames, which are `<artwork-id>_p<k>_master1200.jpg` (the
extension computed by `os.path.splitext` of the rewritten URL). -/
theorem claim_C3 (statusOf : Nat → Nat) (a : Artwork) (dir : List Char) (n : Nat)
    (seg mid pg sfx : List Char)
    (hn : a.pageCount = some (n : Int)) (hn1 : 1 ≤ n)
    (hok : ∀ k, statusOf k = 200 ∨ statusOf k = 403)
    (hurl : a.url =
      thumbHost ++ (seg ++ ("/img/".data ++ (mid ++ ("_p".data ++ (pg ++ sfx))))))
    (hseg : seg = "/c/250x250_80_a2/custom-thumb".data ∨
      seg = "/c/250x250_80_a2/img-master".data)
    (hmid : MidOk mid) (hmne : mid ≠ [])
    (hpg : pg.all Char.isDigit = true) (hpne : pg ≠ [])
    (hsfx : sfx = "_square1200.jpg".data ∨ sfx = "_custom1200.jpg".data) :
    process_artwork_images statusOf a dir =
      ((List.range n).map (fun k =>
        { index := k,
          url := construct_image_url a.url k,
          filename := a.id ++ "_p".data ++ natChars k ++ "_master1200.jpg".data,
          path := joinP dir (a.id ++ "_p".data ++ natChars k ++ "_master1200.jpg".data) }),
        none) ∧
    ((List.range n).map (fun k =>
      a.id ++ "_p".data ++ natChars k ++ "_master1200.jpg".data)).Nodup := by
  have hfile : ∀ k : Nat, save_image_filename a k (construct_image_url a.url k) =
      a.id ++ "_p".data ++ natChars k ++ "_master1200.jpg".data := by
    intro k
    rw [save_image_filename, hurl,
      construct_image_url_thumb k hseg hmid hmne hpg hpne hsfx,
      splitextExt_canon (natChars_all_digit k)]
    simp [List.append_assoc]
  constructor
  · rw [process_artwork_images, hn]
    have hton : ((some (n : Int)).getD 1).toNat = n := by simp
    rw [hton, process_artwork_images_go_ok (List.range n) (fun k _ => hok k)]
    rw [Prod.mk.injEq]
    refine ⟨?_, rfl⟩
    apply List.map_congr_left
    intro k _
    rw [PageDl.mk.injEq]
    exact ⟨rfl, rfl, hfile k, by rw [hfile k]⟩
  · apply List.Nodup.map ?inj (List.nodup_range n)
    case inj =>
      intro i j hij
      dsimp only at hij
      have h1 := List.append_cancel_right hij
      have h2 := List.append_cancel_left h1
      exact natChars_injective h2

/-- Witness for claim C3: a three-page artwork with an accepted status
for every page produces the three expected filenames. -/
theorem claim_C3_witness :
    process_artwork_images (fun _ => 200)
      { id := "118437255".data,
        url := "https://i.pximg.net/c/250x250_80_a2/img-master/img/2024/05/01/00/00/00/118437255_p0_square1200.jpg".data,
        pageCount := some 3, illustType := some 0 } "Downloads/118437255".data =
      ((List.range 3).map (fun k =>
        { index := k,
          url := construct_image_url
            "https://i.pximg.net/c/250x250_80_a2/img-master/img/2024/05/01/00/00/00/118437255_p0_square1200.jpg".data k,
          filename := "118437255".data ++ "_p".data ++ natChars k ++ "_master1200.jpg".data,
          path := joinP "Downloads/118437255".data
            ("118437255".data ++ "_p".data ++ natChars k ++ "_master1200.jpg".data) }),
        none) ∧
    ((List.range 3).map (fun k =>
      "118437255".data ++ "_p".data ++ natChars k ++ "_master1200.jpg".data)).Nodup :=
  claim_C3 (fun _ => 200) _ "Downloads/118437255".data 3
    "/c/250x250_80_a2/img-master".data "2024/05/01/00/00/00/118437255".data
    "0".data "_square1200.jpg".data rfl (by decide) (fun _ => Or.inl rfl) rfl
    (Or.inr rfl) (by decide) (by decide) (by decide) (by decide) (Or.inl rfl)

end PixivDL
